import Mathlib

/-!
Verification of the EEPROM-backed attendance log of the RFID attendance
system (`Code/ReadandWrite_PersonalData/ReadandWrite_PersonalData.ino`,
attendance sketch).  Arduino `String` values are modelled as byte lists
(`List Nat`), the AT24C32 EEPROM as a total function from addresses to
bytes, and each C function of the sketch as a Lean function of the same
name.  All definitions are translated from the source; the only
definitions translated from the specification's words are marked
`Modelled from the spec`.
-/

namespace RFID

/-- Byte list of a string literal (each char as its code point; all
strings used in the sketch are ASCII, so one byte per char). -/
def bytes (s : String) : List Nat :=
  s.toList.map Char.toNat

/-- The delimiter byte of the log wire format, ASCII code of the pipe
character used in `CardID|Name|Status|DateTime`. -/
def PIPE : Nat := 124

/-- A field is delimiter-free. -/
def pipeFree (l : List Nat) : Prop := PIPE ∉ l

instance (l : List Nat) : Decidable (pipeFree l) := by
  unfold pipeFree; infer_instance

/-- `#define MAX_LOGS 30` — maximum number of log entries. -/
def MAX_LOGS : Nat := 30

/-- `#define LOG_SIZE 80` — size of each log slot in bytes. -/
def LOG_SIZE : Nat := 80

/-- Records start at EEPROM address 100: `int addr = 100 + (logCount * LOG_SIZE)`. -/
def LOG_START : Nat := 100

/-- The AT24C32 EEPROM: a total map from byte addresses to byte values. -/
def EEPROM : Type := Nat → Nat

/-- `writeByte(addr, data)`: store one byte (`Wire.write(data)` takes a
`byte`, so the value is truncated to 8 bits). -/
def writeByte (m : EEPROM) (addr : Nat) (data : Nat) : EEPROM :=
  fun a => if a = addr then data % 256 else m a

/-- `readByte(addr)`: read one byte back (`Wire.read()` yields a single
8-bit value). -/
def readByte (m : EEPROM) (addr : Nat) : Nat := m addr % 256

/-- The character-writing loop of `writeString`:
`for (int i = 0; i < str.length() && i < LOG_SIZE-1; i++) writeByte(addr + i, str[i]);`.
The `i < LOG_SIZE-1` bound is applied by the caller via `List.take`. -/
def writeChars (m : EEPROM) (addr : Nat) : List Nat → EEPROM
  | [] => m
  | b :: rest => writeChars (writeByte m addr b) (addr + 1) rest

/-- `writeString(addr, str)`: write at most `LOG_SIZE-1` characters of
`str`, then `writeByte(addr + str.length(), 0)` — note the terminator
goes at `addr` plus the FULL length of `str`, even when the characters
were truncated to `LOG_SIZE-1`. -/
def writeString (m : EEPROM) (addr : Nat) (str : List Nat) : EEPROM :=
  writeByte (writeChars m addr (str.take (LOG_SIZE - 1))) (addr + str.length) 0

/-- The reading loop of `readString`: up to `fuel` bytes, stopping at the
first zero byte. -/
def readStringAux (m : EEPROM) (addr : Nat) : Nat → List Nat
  | 0 => []
  | fuel + 1 =>
    let b := readByte m addr
    if b = 0 then [] else b :: readStringAux m (addr + 1) fuel

/-- `readString(addr, maxLen)`: `for (int i = 0; i < maxLen-1; i++)`,
stop at a zero byte, return the accumulated bytes. -/
def readString (m : EEPROM) (addr : Nat) (maxLen : Nat) : List Nat :=
  readStringAux m addr (maxLen - 1)

/-- `writeInt(addr, value)`: high byte at `addr`, low byte at `addr+1`. -/
def writeInt (m : EEPROM) (addr : Nat) (value : Nat) : EEPROM :=
  writeByte (writeByte m addr (value / 256)) (addr + 1) (value % 256)

/-- `readInt(addr)`: `(high << 8) | low`. -/
def readInt (m : EEPROM) (addr : Nat) : Nat :=
  readByte m addr * 256 + readByte m (addr + 1)

/-- `readLogEntry(index)`: `readString(100 + index * LOG_SIZE, LOG_SIZE)`. -/
def readLogEntry (m : EEPROM) (index : Nat) : List Nat :=
  readString m (LOG_START + index * LOG_SIZE) LOG_SIZE

/-- A timestamp as delivered by `rtc.now()` (the fields used by the sketch). -/
structure DateTime where
  day : Nat
  month : Nat
  year : Nat
  hour : Nat
  minute : Nat
deriving DecidableEq

/-- Calendar ranges of a timestamp. -/
def tsOK (t : DateTime) : Prop :=
  1 ≤ t.day ∧ t.day ≤ 31 ∧ 1 ≤ t.month ∧ t.month ≤ 12 ∧
  t.hour ≤ 23 ∧ t.minute ≤ 59

instance (t : DateTime) : Decidable (tsOK t) := by
  unfold tsOK; infer_instance

/-- Decimal digits of `n`, most significant first, as bytes (`String(int)`
on Arduino: no padding, no leading zeros).  Structural recursion on a
fuel argument so that the kernel can evaluate it. -/
def numBytesAux : Nat → Nat → List Nat
  | 0, _ => []
  | fuel + 1, n =>
    if n < 10 then [48 + n]
    else numBytesAux fuel (n / 10) ++ [48 + n % 10]

/-- `String(n)` for a non-negative int: decimal digits as bytes. -/
def numBytes (n : Nat) : List Nat := numBytesAux (n + 1) n

/-- The timestamp part of a log record, from `logEntry`:
`String(now.day()) + "/" + String(now.month()) + "/" + String(now.year() % 100)
 + " " + String(now.hour()) + ":" + String(now.minute())`. -/
def fmtTime (t : DateTime) : List Nat :=
  numBytes t.day ++ bytes "/" ++ numBytes t.month ++ bytes "/" ++
    numBytes (t.year % 100) ++ bytes " " ++ numBytes t.hour ++ bytes ":" ++
    numBytes t.minute

/-- The name field actually written by `logEntry`:
`if (name.length() > 0) log += name; else log += "Unknown";`. -/
def encName (name : List Nat) : List Nat :=
  if name.length > 0 then name else bytes "Unknown"

/-- The record string built by `logEntry`:
`cardID + "|" + name-or-Unknown + "|" + status + "|" + timestamp`. -/
def encodeLog (cardID name status : List Nat) (t : DateTime) : List Nat :=
  cardID ++ bytes "|" ++ encName name ++ bytes "|" ++ status ++ bytes "|" ++ fmtTime t

/-- One attendance record before encoding (the spec's data model §3). -/
structure AttendanceRecord where
  cardID : List Nat
  name : List Nat
  status : List Nat
  ts : DateTime

/-- A byte string that survives a `writeString`/`readString` round trip
through one `LOG_SIZE` slot: short enough and free of zero bytes. -/
def storable (l : List Nat) : Prop :=
  l.length ≤ LOG_SIZE - 1 ∧ ∀ b ∈ l, 0 < b ∧ b < 256

instance (l : List Nat) : Decidable (storable l) := by
  unfold storable; infer_instance

/-- Arduino `hay.indexOf(needle) >= 0`: `needle` occurs as a contiguous
substring of `hay`. -/
def containsB : List Nat → List Nat → Bool
  | [], needle => needle.isEmpty
  | b :: t, needle => needle.isPrefixOf (b :: t) || containsB t needle

/-- `hay.indexOf(c, fromIndex)` for a single character: first index `≥ start`
holding byte `c`, or `-1`. -/
def indexOfAux : List Nat → Nat → Nat → Int
  | [], _, _ => -1
  | b :: t, c, i => if b = c then (i : Int) else indexOfAux t c (i + 1)

/-- Arduino `l.indexOf(c, start)`. -/
def indexOfFrom (l : List Nat) (c : Nat) (start : Nat) : Int :=
  indexOfAux (l.drop start) c start

/-- The record parse shared by `viewLogs` and `displayLogEntry`:
three `indexOf('|')` searches, the guard `pos1 > 0 && pos2 > pos1 && pos3 > pos2`,
and the four `substring` extractions; `none` when the guard fails (the
caller skips the record). -/
def parseLog (log : List Nat) :
    Option (List Nat × List Nat × List Nat × List Nat) :=
  let pos1 := indexOfFrom log PIPE 0
  let pos2 := indexOfFrom log PIPE (pos1 + 1).toNat
  let pos3 := indexOfFrom log PIPE (pos2 + 1).toNat
  if pos1 > 0 ∧ pos2 > pos1 ∧ pos3 > pos2 then
    some (log.take pos1.toNat,
          (log.take pos2.toNat).drop (pos1.toNat + 1),
          (log.take pos3.toNat).drop (pos2.toNat + 1),
          log.drop (pos3.toNat + 1))
  else none

/-- Number of delimiter bytes in a slot. -/
def numDelims (l : List Nat) : Nat := (l.filter (· = PIPE)).length

/-- The in-RAM state of the sketch that the claims are about: the EEPROM
contents plus the cached `logCount` and `insideCount` globals. -/
structure SysState where
  mem : EEPROM
  logCount : Nat
  insideCount : Int

/-- The scan loop of `getLastStatus`, from `i = logCount - 1` down to `0`:
`if (logEntry.indexOf(cardID) >= 0) { if (logEntry.indexOf("|IN|") >= 0)
return "IN"; if (logEntry.indexOf("|OUT|") >= 0) return "OUT"; }`. -/
def getLastStatusAux (m : EEPROM) (cardID : List Nat) : Nat → List Nat
  | 0 => bytes "OUT"
  | i + 1 =>
    let e := readLogEntry m i
    if containsB e cardID then
      if containsB e (bytes "|IN|") then bytes "IN"
      else if containsB e (bytes "|OUT|") then bytes "OUT"
      else getLastStatusAux m cardID i
    else getLastStatusAux m cardID i

/-- `getLastStatus(cardID)`: backward scan, default `"OUT"`. -/
def getLastStatus (st : SysState) (cardID : List Nat) : List Nat :=
  getLastStatusAux st.mem cardID st.logCount

/-- The loop of `shiftLogs`: `for (int i = 1; i < logCount; i++)` re-writes
slot `i-1` with the string read from slot `i`; the second argument is the
current loop index, the third the number of remaining iterations. -/
def shiftLoop (m : EEPROM) (i : Nat) : Nat → EEPROM
  | 0 => m
  | k + 1 =>
    shiftLoop (writeString m (LOG_START + (i - 1) * LOG_SIZE) (readLogEntry m i)) (i + 1) k

/-- `shiftLogs()`: shift slots `1..logCount-1` down one slot. -/
def shiftLogs (m : EEPROM) (logCount : Nat) : EEPROM :=
  shiftLoop m 1 (logCount - 1)

/-- `logEntry(cardID, name, status)`: evict the oldest slot when full
(`shiftLogs(); logCount = MAX_LOGS - 1;`), write the encoded record at
`100 + logCount * LOG_SIZE`, increment `logCount`, persist it with
`writeInt(0, logCount)`. -/
def logEntryOp (st : SysState) (cardID name status : List Nat) (t : DateTime) : SysState :=
  let m0 := if st.logCount ≥ MAX_LOGS then shiftLogs st.mem st.logCount else st.mem
  let lc0 := if st.logCount ≥ MAX_LOGS then MAX_LOGS - 1 else st.logCount
  let m1 := writeString m0 (LOG_START + lc0 * LOG_SIZE) (encodeLog cardID name status t)
  { st with mem := writeInt m1 0 (lc0 + 1), logCount := lc0 + 1 }

/-- `clearLogs()`: `logCount = 0; insideCount = 0; writeInt(0, logCount);
writeInt(2, insideCount);`. -/
def clearLogs (st : SysState) : SysState :=
  { mem := writeInt (writeInt st.mem 0 0) 2 0, logCount := 0, insideCount := 0 }

/-- The toggle decision of `handleRFIDScan`:
`String newStatus = (lastStatus == "IN") ? "OUT" : "IN";`. -/
def scanStatus (st : SysState) (cardID : List Nat) : List Nat :=
  if getLastStatus st cardID = bytes "IN" then bytes "OUT" else bytes "IN"

/-- The state change of `handleRFIDScan` for a presented card: reject
uninitialized cards (`cardName.length() == 0 || cardID.length() == 0`),
otherwise toggle the status, log the entry, update `insideCount`
(increment on IN, decrement floored at 0 on OUT) and persist it with
`writeInt(2, insideCount)`. -/
def handleScan (st : SysState) (cardName cardID : List Nat) (t : DateTime) : SysState :=
  if cardName.length = 0 ∨ cardID.length = 0 then st
  else
    let newStatus := scanStatus st cardID
    let st1 := logEntryOp st cardID cardName newStatus t
    let inside :=
      if newStatus = bytes "IN" then st1.insideCount + 1
      else if st1.insideCount - 1 < 0 then 0 else st1.insideCount - 1
    { st1 with insideCount := inside, mem := writeInt st1.mem 2 inside.toNat }

/-- The operations that mutate the log or the tally: a successful card
scan, or the clear command. -/
inductive Op where
  | scan (cardName cardID : List Nat) (t : DateTime)
  | clear

/-- Apply one operation. -/
def applyOp (st : SysState) : Op → SysState
  | .scan cardName cardID t => handleScan st cardName cardID t
  | .clear => clearLogs st

/-- Apply a sequence of operations. -/
def applyOps (st : SysState) (ops : List Op) : SysState :=
  ops.foldl applyOp st

/-- Apply a sequence of raw appends (`logEntry` calls). -/
def applyAppends (st : SysState)
    (ops : List (List Nat × List Nat × List Nat × DateTime)) : SysState :=
  ops.foldl (fun s a => logEntryOp s a.1 a.2.1 a.2.2.1 a.2.2.2) st

/-- Prepend a byte to the first chunk of a split. -/
def consHead (b : Nat) : List (List Nat) → List (List Nat)
  | [] => [[b]]
  | f :: r => (b :: f) :: r

/-- Split a slot at every delimiter byte into its fields. -/
def splitFields : List Nat → List (List Nat)
  | [] => [[]]
  | b :: t => if b = PIPE then [] :: splitFields t else consHead b (splitFields t)

/-- Modelled from the spec: `lastStatus` as the claim words it — return
the status field of the first record, scanning backward, whose cardID
FIELD equals the queried cardID; `"OUT"` when no cardID field matches. -/
def specLastStatusAux (m : EEPROM) (cardID : List Nat) : Nat → List Nat
  | 0 => bytes "OUT"
  | i + 1 =>
    let e := readLogEntry m i
    if (splitFields e).headD [] = cardID then (splitFields e).getD 2 []
    else specLastStatusAux m cardID i

/-- Modelled from the spec: the field-equality `lastStatus`. -/
def specLastStatus (st : SysState) (cardID : List Nat) : List Nat :=
  specLastStatusAux st.mem cardID st.logCount

/-- Digit-string to number: fold of `acc * 10 + digit`. -/
def parseNat (l : List Nat) : Nat :=
  l.foldl (fun a b => a * 10 + (b - 48)) 0

/-- Split off the chunk before the first `sep` byte, and the remainder
after it. -/
def sepSplit (l : List Nat) (sep : Nat) : List Nat × List Nat :=
  (l.takeWhile (· ≠ sep), (l.dropWhile (· ≠ sep)).drop 1)

/-- Modelled from the spec: the timestamp sub-format `D/M/YY H:M` read
back into its five numeric fields (the sketch never parses timestamps;
this is the spec's description of the sub-format, used to state that the
rendering loses no information). -/
def parseTs (l : List Nat) : Nat × Nat × Nat × Nat × Nat :=
  (parseNat (sepSplit l 47).1,
   parseNat (sepSplit (sepSplit l 47).2 47).1,
   parseNat (sepSplit (sepSplit (sepSplit l 47).2 47).2 32).1,
   parseNat (sepSplit (sepSplit (sepSplit (sepSplit l 47).2 47).2 32).2 58).1,
   parseNat (sepSplit (sepSplit (sepSplit (sepSplit l 47).2 47).2 32).2 58).2)

/-- Well-formedness of a record for the `getLastStatus` refinement: a
nonempty delimiter-free cardID, a delimiter-free name other than `"IN"`,
and a status that is `"IN"` or `"OUT"`. -/
def RecordWF (r : AttendanceRecord) : Prop :=
  r.cardID ≠ [] ∧ pipeFree r.cardID ∧ pipeFree r.name ∧ r.name ≠ bytes "IN" ∧
  (r.status = bytes "IN" ∨ r.status = bytes "OUT")

instance (r : AttendanceRecord) : Decidable (RecordWF r) := by
  unfold RecordWF; infer_instance

/-- Bytes of a field as stored on a card: nonzero and 8-bit. -/
def byteOK (l : List Nat) : Prop := ∀ b ∈ l, 0 < b ∧ b < 256

instance (l : List Nat) : Decidable (byteOK l) := by
  unfold byteOK; infer_instance

/-- A blank EEPROM (all bytes zero). -/
def zeroMem : EEPROM := fun _ => 0

/-- The boot state of a fresh device: blank store, no logs, nobody inside. -/
def emptySt : SysState := ⟨zeroMem, 0, 0⟩

/-- Sample timestamps for concrete scenarios. -/
def ts1 : DateTime := ⟨1, 1, 2025, 0, 0⟩

def ts2 : DateTime := ⟨2, 3, 2025, 10, 5⟩

def ts3 : DateTime := ⟨31, 12, 2025, 23, 59⟩

/-- A state whose single record belongs to card `AB12`: the queried id
`AB1` matches no cardID field but occurs as a substring. -/
def oneRecSt : SysState :=
  ⟨writeString zeroMem LOG_START (encodeLog (bytes "AB12") (bytes "Alice") (bytes "IN") ts1), 1, 1⟩

/-- The record family stored in `oneRecSt` (slot 0 only). -/
def oneRec : Nat → AttendanceRecord :=
  fun _ => ⟨bytes "AB12", bytes "Alice", bytes "IN", ts1⟩

/-- An EEPROM holding `7` everywhere, to observe stray writes. -/
def sevenMem : EEPROM := fun _ => 7

/-- A record used to fill all thirty slots of a full log. -/
def fullRec : List Nat := bytes "A|B|IN|1/1/25 0:0"

/-- An EEPROM whose thirty record slots all hold `fullRec`. -/
def fullMem : EEPROM :=
  fun a => if a < LOG_START then 0 else fullRec.getD ((a - LOG_START) % LOG_SIZE) 0

/-- A state with a full log (`logCount = MAX_LOGS`). -/
def fullSt : SysState := ⟨fullMem, MAX_LOGS, 0⟩

/-! ### Byte-store lemmas -/

theorem writeByte_same (m : EEPROM) (addr b : Nat) :
    writeByte m addr b addr = b % 256 := by
  simp [writeByte]

theorem writeByte_other (m : EEPROM) (addr b a : Nat) (h : a ≠ addr) :
    writeByte m addr b a = m a := by
  simp [writeByte, h]

theorem writeChars_outside (s : List Nat) :
    ∀ m addr a, (a < addr ∨ addr + s.length ≤ a) → writeChars m addr s a = m a := by
  induction s with
  | nil => intro m addr a _; rfl
  | cons b rest ih =>
    intro m addr a h
    simp only [writeChars]
    rw [ih (writeByte m addr b) (addr + 1) a (by simp at h ⊢; omega)]
    exact writeByte_other m addr b a (by simp at h; omega)

theorem writeChars_get (s : List Nat) :
    ∀ m addr j, j < s.length → writeChars m addr s (addr + j) = s.getD j 0 % 256 := by
  induction s with
  | nil => intro m addr j h; simp at h
  | cons b rest ih =>
    intro m addr j h
    match j with
    | 0 =>
      simp only [writeChars]
      rw [writeChars_outside rest (writeByte m addr b) (addr + 1) (addr + 0) (by omega)]
      simpa using writeByte_same m addr b
    | j + 1 =>
      simp only [writeChars, List.getD_cons_succ]
      have : addr + (j + 1) = (addr + 1) + j := by omega
      rw [this, ih (writeByte m addr b) (addr + 1) j (by simpa using h)]

theorem writeString_frame (m : EEPROM) (addr : Nat) (str : List Nat)
    (hlen : str.length ≤ LOG_SIZE - 1) (a : Nat)
    (h : a < addr ∨ addr + LOG_SIZE ≤ a) : writeString m addr str a = m a := by
  unfold writeString
  rw [writeByte_other _ _ _ _ (by unfold LOG_SIZE at *; omega)]
  exact writeChars_outside _ _ _ _ (by
    have := List.length_take (LOG_SIZE - 1) str
    unfold LOG_SIZE at *; omega)

theorem writeString_get (m : EEPROM) (addr : Nat) (str : List Nat)
    (hlen : str.length ≤ LOG_SIZE - 1) (j : Nat) (hj : j < str.length) :
    writeString m addr str (addr + j) = str.getD j 0 % 256 := by
  unfold writeString
  rw [writeByte_other _ _ _ _ (by omega)]
  have htake : (str.take (LOG_SIZE - 1)).length = str.length := by
    simp; omega
  have hjk : j < LOG_SIZE - 1 := by unfold LOG_SIZE at *; omega
  rw [writeChars_get _ _ _ _ (by omega)]
  congr 1
  simp [List.getD, List.getElem?_take, hjk]

theorem writeString_terminator (m : EEPROM) (addr : Nat) (str : List Nat) :
    writeString m addr str (addr + str.length) = 0 := by
  unfold writeString
  simpa using writeByte_same _ _ _

theorem readStringAux_congr (m1 m2 : EEPROM) :
    ∀ fuel addr, (∀ j, j < fuel → m1 (addr + j) = m2 (addr + j)) →
      readStringAux m1 addr fuel = readStringAux m2 addr fuel := by
  intro fuel
  induction fuel with
  | zero => intro addr _; rfl
  | succ f ih =>
    intro addr h
    have h0 : m1 addr = m2 addr := by simpa using h 0 (by omega)
    simp only [readStringAux, readByte, h0]
    by_cases hz : m2 addr % 256 = 0
    · simp [hz]
    · simp only [hz, if_neg hz]
      rw [ih (addr + 1) (fun j hj => by
        have := h (j + 1) (by omega)
        simpa [Nat.add_comm, Nat.add_assoc, Nat.add_left_comm] using this)]

theorem readStringAux_props :
    ∀ fuel m addr, (readStringAux m addr fuel).length ≤ fuel ∧
      ∀ b ∈ readStringAux m addr fuel, 0 < b ∧ b < 256 := by
  intro fuel
  induction fuel with
  | zero => intro m addr; simp [readStringAux]
  | succ f ih =>
    intro m addr
    simp only [readStringAux, readByte]
    by_cases hz : m addr % 256 = 0
    · simp [hz]
    · simp only [if_neg hz, List.length_cons, List.mem_cons]
      refine ⟨by have := (ih m (addr + 1)).1; omega, ?_⟩
      rintro b (rfl | hb)
      · exact ⟨Nat.pos_of_ne_zero hz, Nat.mod_lt _ (by omega)⟩
      · exact (ih m (addr + 1)).2 b hb

theorem readStringAux_of (str : List Nat) :
    ∀ fuel addr m, str.length ≤ fuel →
      (∀ j, j < str.length → m (addr + j) = str.getD j 0) →
      (str.length < fuel → m (addr + str.length) = 0) →
      (∀ b ∈ str, 0 < b ∧ b < 256) →
      readStringAux m addr fuel = str := by
  induction str with
  | nil =>
    intro fuel addr m _ _ hterm _
    match fuel with
    | 0 => rfl
    | f + 1 =>
      have h0 : m addr = 0 := by simpa using hterm (by simp)
      simp [readStringAux, readByte, h0]
  | cons b rest ih =>
    intro fuel addr m hlen hget hterm hbytes
    match fuel with
    | 0 => simp at hlen
    | f + 1 =>
      have h0 : m addr = b := by simpa using hget 0 (by simp)
      have hb : 0 < b ∧ b < 256 := hbytes b (by simp)
      have hmod : b % 256 = b := Nat.mod_eq_of_lt hb.2
      have hbne : ¬(b = 0) := by omega
      simp only [readStringAux, readByte, h0, hmod, if_neg hbne]
      congr 1
      refine ih f (addr + 1) m (by simpa using hlen) ?_ ?_ ?_
      · intro j hj
        have := hget (j + 1) (by simpa using hj)
        simpa [Nat.add_comm, Nat.add_assoc, Nat.add_left_comm] using this
      · intro hlt
        have := hterm (by simpa using hlt)
        simpa [Nat.add_comm, Nat.add_assoc, Nat.add_left_comm] using this
      · intro x hx; exact hbytes x (by simp [hx])

theorem readString_writeString (m : EEPROM) (addr : Nat) (str : List Nat)
    (h : storable str) :
    readString (writeString m addr str) addr LOG_SIZE = str := by
  obtain ⟨hlen, hbytes⟩ := h
  refine readStringAux_of str (LOG_SIZE - 1) addr _ hlen ?_ ?_ hbytes
  · intro j hj
    rw [writeString_get m addr str hlen j hj]
    have : str.getD j 0 < 256 := by
      have hmem : str.getD j 0 ∈ str := by
        simp [List.getD, List.getElem?_eq_getElem hj, List.getElem_mem]
      exact (hbytes _ hmem).2
    omega
  · intro _
    exact writeString_terminator m addr str

/-- The string read back from a slot is always storable: at most
`LOG_SIZE - 1` bytes, each nonzero and below 256. -/
theorem readLogEntry_storable (m : EEPROM) (i : Nat) :
    storable (readLogEntry m i) := by
  have := readStringAux_props (LOG_SIZE - 1) m (LOG_START + i * LOG_SIZE)
  exact ⟨this.1, this.2⟩

/-- `readLogEntry` only looks at the slot's own bytes. -/
theorem readLogEntry_congr (m1 m2 : EEPROM) (i : Nat)
    (h : ∀ a, LOG_START + i * LOG_SIZE ≤ a → a < LOG_START + i * LOG_SIZE + (LOG_SIZE - 1) →
      m1 a = m2 a) :
    readLogEntry m1 i = readLogEntry m2 i := by
  refine readStringAux_congr m1 m2 (LOG_SIZE - 1) (LOG_START + i * LOG_SIZE) ?_
  intro j hj
  exact h _ (by omega) (by omega)

/-- Writing a record into slot `k` leaves every other slot's record
unchanged. -/
theorem readLogEntry_writeString_frame (m : EEPROM) (k j : Nat) (str : List Nat)
    (hlen : str.length ≤ LOG_SIZE - 1) (hne : j ≠ k) :
    readLogEntry (writeString m (LOG_START + k * LOG_SIZE) str) j = readLogEntry m j := by
  refine readLogEntry_congr _ _ j ?_
  intro a ha1 ha2
  refine writeString_frame m _ str hlen a ?_
  unfold LOG_SIZE LOG_START at *
  rcases Nat.lt_or_ge j k with hjk | hjk
  · left; have : j + 1 ≤ k := hjk; nlinarith
  · right
    have hkj : k + 1 ≤ j := by omega
    nlinarith

/-- Reading slot `k` right after writing it yields the written record. -/
theorem readLogEntry_writeString (m : EEPROM) (k : Nat) (str : List Nat)
    (h : storable str) :
    readLogEntry (writeString m (LOG_START + k * LOG_SIZE) str) k = str :=
  readString_writeString m _ str h

/-- Header writes (`writeInt` at addresses 0 and 2) do not change any
record slot. -/
theorem readLogEntry_writeInt_frame (m : EEPROM) (addr v j : Nat)
    (h : addr + 1 < LOG_START) :
    readLogEntry (writeInt m addr v) j = readLogEntry m j := by
  refine readLogEntry_congr _ _ j ?_
  intro a ha1 _
  unfold writeInt
  rw [writeByte_other _ _ _ _ (by unfold LOG_START at *; omega),
      writeByte_other _ _ _ _ (by unfold LOG_START at *; omega)]

theorem readInt_writeInt (m : EEPROM) (addr v : Nat) (h : v < 65536) :
    readInt (writeInt m addr v) addr = v := by
  unfold readInt writeInt readByte
  rw [writeByte_other _ _ _ (addr) (by omega), writeByte_same, writeByte_same]
  omega

theorem writeInt_other (m : EEPROM) (addr v a : Nat) (h1 : a ≠ addr) (h2 : a ≠ addr + 1) :
    writeInt m addr v a = m a := by
  unfold writeInt
  rw [writeByte_other _ _ _ _ h2, writeByte_other _ _ _ _ h1]

/-! ### Substring-search lemmas -/

theorem containsB_cons (b : Nat) (t p : List Nat) :
    containsB (b :: t) p = (p.isPrefixOf (b :: t) || containsB t p) := rfl

theorem containsB_of_isPrefixOf (v p : List Nat) (h : p.isPrefixOf v = true) :
    containsB v p = true := by
  cases v with
  | nil =>
    cases p with
    | nil => rfl
    | cons b t => simp [List.isPrefixOf] at h
  | cons b t => simp [containsB_cons, h]

theorem containsB_append_right (u v p : List Nat) (h : containsB v p = true) :
    containsB (u ++ v) p = true := by
  induction u with
  | nil => simpa
  | cons x u2 ih => simp [containsB_cons, ih]

theorem isPrefixOf_append_self (p y : List Nat) : p.isPrefixOf (p ++ y) = true := by
  induction p with
  | nil => simp [List.isPrefixOf]
  | cons b t ih => simp [List.isPrefixOf, ih]

/-- A needle occurring literally inside the haystack is found. -/
theorem containsB_surround (u p y : List Nat) : containsB (u ++ (p ++ y)) p = true :=
  containsB_append_right u _ p
    (containsB_of_isPrefixOf _ p (isPrefixOf_append_self p y))

/-- A needle starting with the delimiter cannot start inside a
delimiter-free chunk. -/
theorem containsB_append_sep (u v w : List Nat) (hu : pipeFree u) :
    containsB (u ++ v) (PIPE :: w) = containsB v (PIPE :: w) := by
  induction u with
  | nil => rfl
  | cons x u2 ih =>
    have hx : x ≠ PIPE := fun h => hu (by simp [h])
    have hu2 : pipeFree u2 := fun h => hu (List.mem_cons_of_mem _ h)
    have hbe : (PIPE == x) = false := beq_eq_false_iff_ne.mpr (Ne.symm hx)
    simp [containsB_cons, List.isPrefixOf, hbe, ih hu2]

theorem containsB_pipeFree_none (u w : List Nat) (hu : pipeFree u) :
    containsB u (PIPE :: w) = false := by
  have h := containsB_append_sep u [] w hu
  simpa [containsB] using h

theorem bytes_bar : bytes "|" = [PIPE] := by decide

theorem bytes_IN : bytes "IN" = [73, 78] := by decide

theorem bytes_OUT : bytes "OUT" = [79, 85, 84] := by decide

theorem bytes_IN_marker : bytes "|IN|" = PIPE :: [73, 78, PIPE] := by decide

theorem bytes_OUT_marker : bytes "|OUT|" = PIPE :: [79, 85, 84, PIPE] := by decide

/-- `"IN|"` is not a prefix of `field ++ "|" ++ rest` when the field is
delimiter-free and differs from `"IN"`. -/
theorem IN_bar_isPrefixOf_eq_false (n r : List Nat) (hn : pipeFree n) (hne : n ≠ bytes "IN") :
    ([73, 78, PIPE] : List Nat).isPrefixOf (n ++ PIPE :: r) = false := by
  match n with
  | [] => simp [List.isPrefixOf, PIPE]
  | [a] => simp [List.isPrefixOf, PIPE]
  | [a, b] =>
    rw [bytes_IN] at hne
    by_cases ha : a = 73
    · by_cases hb : b = 78
      · exact absurd (by rw [ha, hb]) hne
      · simp [List.isPrefixOf, beq_eq_false_iff_ne.mpr (Ne.symm hb)]
    · simp [List.isPrefixOf, beq_eq_false_iff_ne.mpr (Ne.symm ha)]
  | a :: b :: c :: rest =>
    have hc : c ≠ PIPE := fun h => hn (by simp [h])
    simp [List.isPrefixOf, beq_eq_false_iff_ne.mpr (Ne.symm hc)]

theorem not_isPrefixOf_of_headD (p0 : Nat) (p ts : List Nat) (h : ts.headD 0 ≠ p0) :
    (p0 :: p).isPrefixOf ts = false := by
  cases ts with
  | nil => simp [List.isPrefixOf]
  | cons t0 t =>
    simp only [List.headD_cons] at h
    simp [List.isPrefixOf, beq_eq_false_iff_ne.mpr (Ne.symm h)]

/-- A record whose status field is `"OUT"` does not contain the `"|IN|"`
marker, provided its fields are delimiter-free, the name field is not
literally `"IN"`, and the timestamp starts with something other than `I`. -/
theorem no_IN_marker (c n2 ts : List Nat) (hc : pipeFree c) (hn : pipeFree n2)
    (hne : n2 ≠ bytes "IN") (hts : pipeFree ts) (hhead : ts.headD 0 ≠ 73) :
    containsB (c ++ PIPE :: (n2 ++ PIPE :: (bytes "OUT" ++ PIPE :: ts)))
      (bytes "|IN|") = false := by
  rw [bytes_IN_marker]
  rw [containsB_append_sep _ _ _ hc]
  rw [containsB_cons]
  have h1 : ([73, 78, PIPE] : List Nat).isPrefixOf (n2 ++ PIPE :: (bytes "OUT" ++ PIPE :: ts)) = false :=
    IN_bar_isPrefixOf_eq_false n2 _ hn hne
  simp only [List.isPrefixOf, beq_self_eq_true, Bool.true_and, h1, Bool.false_or]
  rw [containsB_append_sep _ _ _ hn]
  rw [containsB_cons]
  have h2 : ([73, 78, PIPE] : List Nat).isPrefixOf (bytes "OUT" ++ PIPE :: ts) = false := by
    rw [bytes_OUT]; simp [List.isPrefixOf, PIPE]
  simp only [List.isPrefixOf, beq_self_eq_true, Bool.true_and, h2, Bool.false_or]
  rw [containsB_append_sep _ _ _ (by rw [bytes_OUT]; decide)]
  rw [containsB_cons]
  have h3 : ([73, 78, PIPE] : List Nat).isPrefixOf ts = false :=
    not_isPrefixOf_of_headD 73 _ ts hhead
  simp only [List.isPrefixOf, beq_self_eq_true, Bool.true_and, h3, Bool.false_or]
  exact containsB_pipeFree_none ts _ hts

/-! ### Decimal-rendering lemmas -/

theorem numBytesAux_props :
    ∀ fuel n, n < fuel →
      (∀ b ∈ numBytesAux fuel n, 48 ≤ b ∧ b ≤ 57) ∧ numBytesAux fuel n ≠ [] ∧
        parseNat (numBytesAux fuel n) = n := by
  intro fuel
  induction fuel with
  | zero => intro n h; omega
  | succ f ih =>
    intro n h
    by_cases h10 : n < 10
    · refine ⟨?_, ?_, ?_⟩ <;> simp [numBytesAux, h10, parseNat] <;> omega
    · have hrec := ih (n / 10) (by omega)
      simp only [numBytesAux, if_neg h10]
      refine ⟨?_, by simp, ?_⟩
      · intro b hb
        rcases List.mem_append.mp hb with hb | hb
        · exact hrec.1 b hb
        · simp at hb; omega
      · have : parseNat (numBytesAux f (n / 10) ++ [48 + n % 10]) =
            parseNat (numBytesAux f (n / 10)) * 10 + (48 + n % 10 - 48) := by
          simp [parseNat, List.foldl_append]
        rw [this, hrec.2.2]
        omega

theorem numBytes_digits (n : Nat) : ∀ b ∈ numBytes n, 48 ≤ b ∧ b ≤ 57 :=
  (numBytesAux_props (n + 1) n (by omega)).1

theorem numBytes_ne_nil (n : Nat) : numBytes n ≠ [] :=
  (numBytesAux_props (n + 1) n (by omega)).2.1

theorem parseNat_numBytes (n : Nat) : parseNat (numBytes n) = n :=
  (numBytesAux_props (n + 1) n (by omega)).2.2

theorem numBytesAux_len_le_two :
    ∀ fuel n, n < fuel → n ≤ 99 → (numBytesAux fuel n).length ≤ 2 := by
  intro fuel
  induction fuel with
  | zero => intro n h; omega
  | succ f ih =>
    intro n h h99
    by_cases h10 : n < 10
    · simp [numBytesAux, h10]
    · have : (numBytesAux f (n / 10)).length ≤ 2 := ih (n / 10) (by omega) (by omega)
      have h1 : n / 10 < 10 := by omega
      have heq : numBytesAux f (n / 10) = [48 + n / 10] := by
        match f with
        | 0 => omega
        | f2 + 1 => simp [numBytesAux, h1]
      simp [numBytesAux, h10, heq]

theorem numBytes_len_le_two (n : Nat) (h : n ≤ 99) : (numBytes n).length ≤ 2 :=
  numBytesAux_len_le_two (n + 1) n (by omega) h

theorem headD_append_of_ne_nil (u v : List Nat) (d : Nat) (h : u ≠ []) :
    (u ++ v).headD d = u.headD d := by
  cases u with
  | nil => exact absurd rfl h
  | cons x t => simp

theorem numBytes_headD (n : Nat) : 48 ≤ (numBytes n).headD 0 ∧ (numBytes n).headD 0 ≤ 57 := by
  rcases hu : numBytes n with _ | ⟨x, t⟩
  · exact absurd hu (numBytes_ne_nil n)
  · have : x ∈ numBytes n := by rw [hu]; simp
    simpa using numBytes_digits n x this

/-! ### Timestamp-format and record-encoding lemmas -/

theorem bytes_slash : bytes "/" = [47] := by decide

theorem bytes_space : bytes " " = [32] := by decide

theorem bytes_colon : bytes ":" = [58] := by decide

theorem fmtTime_byte (t : DateTime) : ∀ b ∈ fmtTime t, b = 32 ∨ (47 ≤ b ∧ b ≤ 58) := by
  intro b hb
  simp only [fmtTime, bytes_slash, bytes_space, bytes_colon, List.mem_append,
    List.mem_singleton] at hb
  rcases hb with ((((((((hb | hb) | hb) | hb) | hb) | hb) | hb) | hb) | hb) <;>
    first
      | (have hd := numBytes_digits _ _ hb; omega)
      | omega

theorem fmtTime_pipeFree (t : DateTime) : pipeFree (fmtTime t) := by
  intro h
  have := fmtTime_byte t PIPE h
  unfold PIPE at this
  omega

theorem fmtTime_byteOK (t : DateTime) : byteOK (fmtTime t) := by
  intro b hb
  have := fmtTime_byte t b hb
  omega

theorem fmtTime_assoc (t : DateTime) :
    fmtTime t = numBytes t.day ++ (bytes "/" ++ (numBytes t.month ++ (bytes "/" ++
      (numBytes (t.year % 100) ++ (bytes " " ++ (numBytes t.hour ++ (bytes ":" ++
        numBytes t.minute))))))) := by
  simp [fmtTime, List.append_assoc]

theorem fmtTime_headD (t : DateTime) : (fmtTime t).headD 0 ≠ 73 := by
  rw [fmtTime_assoc, headD_append_of_ne_nil _ _ _ (numBytes_ne_nil t.day)]
  have := numBytes_headD t.day
  omega

theorem fmtTime_len (t : DateTime) (h : tsOK t) : (fmtTime t).length ≤ 14 := by
  obtain ⟨h1, h2, h3, h4, h5, h6⟩ := h
  have hd := numBytes_len_le_two t.day (by omega)
  have hm := numBytes_len_le_two t.month (by omega)
  have hy := numBytes_len_le_two (t.year % 100) (by omega)
  have hh := numBytes_len_le_two t.hour (by omega)
  have hmi := numBytes_len_le_two t.minute (by omega)
  simp only [fmtTime, bytes_slash, bytes_space, bytes_colon, List.length_append,
    List.length_singleton]
  omega

theorem encName_pipeFree (n : List Nat) (h : pipeFree n) : pipeFree (encName n) := by
  unfold encName
  split
  · exact h
  · decide

theorem encName_byteOK (n : List Nat) (h : byteOK n) : byteOK (encName n) := by
  unfold encName
  split
  · exact h
  · decide

theorem encName_ne_IN (n : List Nat) (h : n ≠ bytes "IN") : encName n ≠ bytes "IN" := by
  unfold encName
  split
  · exact h
  · decide

theorem encName_len (n : List Nat) (h : n.length ≤ 32) : (encName n).length ≤ 32 := by
  unfold encName
  split
  · exact h
  · decide

/-- The record string in right-nested form, delimiters exposed. -/
theorem encodeLog_eq (c n s : List Nat) (t : DateTime) :
    encodeLog c n s t = c ++ PIPE :: (encName n ++ PIPE :: (s ++ PIPE :: fmtTime t)) := by
  simp [encodeLog, bytes_bar, List.append_assoc]

theorem encodeLog_len (c n s : List Nat) (t : DateTime)
    (hc : c.length ≤ 8) (hn : n.length ≤ 32)
    (hs : s = bytes "IN" ∨ s = bytes "OUT") (ht : tsOK t) :
    (encodeLog c n s t).length ≤ 60 := by
  have h1 := encName_len n hn
  have h2 := fmtTime_len t ht
  have h3 : s.length ≤ 3 := by rcases hs with rfl | rfl <;> decide
  rw [encodeLog_eq]
  simp only [List.length_append, List.length_cons]
  omega

theorem encodeLog_storable (c n s : List Nat) (t : DateTime)
    (hcb : byteOK c) (hnb : byteOK n) (hc : c.length ≤ 8) (hn : n.length ≤ 32)
    (hs : s = bytes "IN" ∨ s = bytes "OUT") (ht : tsOK t) :
    storable (encodeLog c n s t) := by
  constructor
  · have := encodeLog_len c n s t hc hn hs ht
    unfold LOG_SIZE
    omega
  · intro b hb
    rw [encodeLog_eq] at hb
    have hnb2 := encName_byteOK n hnb
    have hsb : byteOK s := by rcases hs with rfl | rfl <;> decide
    have htb := fmtTime_byteOK t
    simp only [List.mem_append, List.mem_cons] at hb
    rcases hb with hb | hb | hb | hb | hb | hb
    · exact hcb b hb
    · rw [hb]; unfold PIPE; omega
    · exact hnb2 b hb
    · rw [hb]; unfold PIPE; omega
    · exact hsb b hb
    · rcases hb with hb | hb
      · rw [hb]; unfold PIPE; omega
      · exact htb b hb

/-! ### Field-splitting and parse lemmas -/

theorem splitFields_nosep (a : List Nat) (ha : pipeFree a) : splitFields a = [a] := by
  induction a with
  | nil => rfl
  | cons x t ih =>
    have hx : x ≠ PIPE := fun h => ha (by simp [h])
    have ht : pipeFree t := fun h => ha (List.mem_cons_of_mem _ h)
    simp [splitFields, hx, ih ht, consHead]

theorem splitFields_append_sep (a r : List Nat) (ha : pipeFree a) :
    splitFields (a ++ PIPE :: r) = a :: splitFields r := by
  induction a with
  | nil => simp [splitFields]
  | cons x t ih =>
    have hx : x ≠ PIPE := fun h => ha (by simp [h])
    have ht : pipeFree t := fun h => ha (List.mem_cons_of_mem _ h)
    simp [splitFields, hx, ih ht, consHead]

theorem splitFields_ne_nil (l : List Nat) : splitFields l ≠ [] := by
  induction l with
  | nil => simp [splitFields]
  | cons x t ih =>
    by_cases hx : x = PIPE
    · simp [splitFields, hx]
    · simp only [splitFields, if_neg hx]
      cases splitFields t with
      | nil => simp [consHead]
      | cons f r => simp [consHead]

theorem splitFields_four (a b c d : List Nat)
    (ha : pipeFree a) (hb : pipeFree b) (hc : pipeFree c) (hd : pipeFree d) :
    splitFields (a ++ PIPE :: (b ++ PIPE :: (c ++ PIPE :: d))) = [a, b, c, d] := by
  rw [splitFields_append_sep _ _ ha, splitFields_append_sep _ _ hb,
    splitFields_append_sep _ _ hc, splitFields_nosep _ hd]

theorem indexOfAux_append (a r : List Nat) (ch : Nat) :
    ∀ i, ch ∉ a → indexOfAux (a ++ ch :: r) ch i = ((i + a.length : Nat) : Int) := by
  induction a with
  | nil => intro i _; simp [indexOfAux]
  | cons x t ih =>
    intro i ha
    have hx : x ≠ ch := fun h => ha (by simp [h])
    have ht : ch ∉ t := fun h => ha (List.mem_cons_of_mem _ h)
    simp only [List.cons_append, indexOfAux, if_neg hx]
    have hconv : t.append (ch :: r) = t ++ ch :: r := rfl
    rw [hconv, ih (i + 1) ht]
    congr 1
    simp
    omega

theorem indexOfAux_not_mem (a : List Nat) (ch : Nat) :
    ∀ i, ch ∉ a → indexOfAux a ch i = -1 := by
  induction a with
  | nil => intro i _; rfl
  | cons x t ih =>
    intro i ha
    have hx : x ≠ ch := fun h => ha (by simp [h])
    have ht : ch ∉ t := fun h => ha (List.mem_cons_of_mem _ h)
    simp only [indexOfAux, if_neg hx]
    exact ih (i + 1) ht

/-- Parsing a well-delimited record recovers its four fields. -/
theorem parseLog_four (a b c d : List Nat) (hane : a ≠ [])
    (ha : pipeFree a) (hb : pipeFree b) (hc : pipeFree c) :
    parseLog (a ++ PIPE :: (b ++ PIPE :: (c ++ PIPE :: d))) = some (a, b, c, d) := by
  have hlen : 1 ≤ a.length := by
    cases a with
    | nil => exact absurd rfl hane
    | cons x t => simp
  have hshape1 : a ++ PIPE :: (b ++ PIPE :: (c ++ PIPE :: d)) =
      (a ++ [PIPE]) ++ (b ++ PIPE :: (c ++ PIPE :: d)) := by simp
  have hshape2 : a ++ PIPE :: (b ++ PIPE :: (c ++ PIPE :: d)) =
      ((a ++ [PIPE]) ++ (b ++ [PIPE])) ++ (c ++ PIPE :: d) := by simp
  have hshape3 : a ++ PIPE :: (b ++ PIPE :: (c ++ PIPE :: d)) =
      (((a ++ [PIPE]) ++ (b ++ [PIPE])) ++ (c ++ [PIPE])) ++ d := by simp
  simp only [parseLog, indexOfFrom, List.drop_zero]
  rw [indexOfAux_append a _ PIPE 0 ha]
  have ht1 : (((0 + a.length : Nat) : Int) + 1).toNat = a.length + 1 := by omega
  rw [ht1]
  have hdrop1 : (a ++ PIPE :: (b ++ PIPE :: (c ++ PIPE :: d))).drop (a.length + 1) =
      b ++ PIPE :: (c ++ PIPE :: d) := by
    rw [hshape1, show a.length + 1 = (a ++ [PIPE]).length by simp, List.drop_left]
  rw [hdrop1, indexOfAux_append b _ PIPE _ hb]
  have ht2 : (((a.length + 1 + b.length : Nat) : Int) + 1).toNat =
      a.length + 1 + b.length + 1 := by omega
  rw [ht2]
  have hdrop2 : (a ++ PIPE :: (b ++ PIPE :: (c ++ PIPE :: d))).drop
      (a.length + 1 + b.length + 1) = c ++ PIPE :: d := by
    rw [hshape2, show a.length + 1 + b.length + 1 = ((a ++ [PIPE]) ++ (b ++ [PIPE])).length by
      simp; omega, List.drop_left]
  rw [hdrop2, indexOfAux_append c _ PIPE _ hc]
  rw [if_pos (by refine ⟨by omega, by omega, by omega⟩)]
  congr 1
  have hta : ((0 + a.length : Nat) : Int).toNat = a.length := by omega
  have htb2 : ((a.length + 1 + b.length : Nat) : Int).toNat = a.length + 1 + b.length := by
    omega
  have htc : ((a.length + 1 + b.length + 1 + c.length : Nat) : Int).toNat =
      a.length + 1 + b.length + 1 + c.length := by omega
  rw [hta, htb2, htc]
  have he1 : (a ++ PIPE :: (b ++ PIPE :: (c ++ PIPE :: d))).take a.length = a := by
    have : (a ++ PIPE :: (b ++ PIPE :: (c ++ PIPE :: d))).take a.length =
        (a ++ PIPE :: (b ++ PIPE :: (c ++ PIPE :: d))).take a.length := rfl
    rw [show (a ++ PIPE :: (b ++ PIPE :: (c ++ PIPE :: d))) =
      a ++ (PIPE :: (b ++ PIPE :: (c ++ PIPE :: d))) from rfl]
    exact List.take_left a _
  have he2 : ((a ++ PIPE :: (b ++ PIPE :: (c ++ PIPE :: d))).take
      (a.length + 1 + b.length)).drop (a.length + 1) = b := by
    rw [hshape1]
    have : ((a ++ [PIPE]) ++ (b ++ PIPE :: (c ++ PIPE :: d))).take (a.length + 1 + b.length) =
        (a ++ [PIPE]) ++ b := by
      rw [show (a ++ [PIPE]) ++ (b ++ PIPE :: (c ++ PIPE :: d)) =
        ((a ++ [PIPE]) ++ b) ++ (PIPE :: (c ++ PIPE :: d)) by simp,
        show a.length + 1 + b.length = ((a ++ [PIPE]) ++ b).length by simp; omega]
      exact List.take_left _ _
    rw [this, show a.length + 1 = (a ++ [PIPE]).length by simp, List.drop_left]
  have he3 : ((a ++ PIPE :: (b ++ PIPE :: (c ++ PIPE :: d))).take
      (a.length + 1 + b.length + 1 + c.length)).drop (a.length + 1 + b.length + 1) = c := by
    rw [hshape2]
    have : (((a ++ [PIPE]) ++ (b ++ [PIPE])) ++ (c ++ PIPE :: d)).take
        (a.length + 1 + b.length + 1 + c.length) = ((a ++ [PIPE]) ++ (b ++ [PIPE])) ++ c := by
      rw [show ((a ++ [PIPE]) ++ (b ++ [PIPE])) ++ (c ++ PIPE :: d) =
        (((a ++ [PIPE]) ++ (b ++ [PIPE])) ++ c) ++ (PIPE :: d) by simp,
        show a.length + 1 + b.length + 1 + c.length =
          (((a ++ [PIPE]) ++ (b ++ [PIPE])) ++ c).length by simp; omega]
      exact List.take_left _ _
    rw [this, show a.length + 1 + b.length + 1 =
      ((a ++ [PIPE]) ++ (b ++ [PIPE])).length by simp; omega, List.drop_left]
  have he4 : (a ++ PIPE :: (b ++ PIPE :: (c ++ PIPE :: d))).drop
      (a.length + 1 + b.length + 1 + c.length + 1) = d := by
    rw [hshape3, show a.length + 1 + b.length + 1 + c.length + 1 =
      (((a ++ [PIPE]) ++ (b ++ [PIPE])) ++ (c ++ [PIPE])).length by simp; omega,
      List.drop_left]
  rw [he1, he2, he3, he4]

theorem takeWhile_sep (sep : Nat) (u v : List Nat) (hu : ∀ b ∈ u, b ≠ sep) :
    (u ++ sep :: v).takeWhile (· ≠ sep) = u := by
  induction u with
  | nil => simp
  | cons x t ih =>
    have hx : x ≠ sep := hu x (by simp)
    rw [List.cons_append, List.takeWhile_cons, if_pos (by simp [hx]),
      ih (fun b hb => hu b (List.mem_cons_of_mem _ hb))]

theorem dropWhile_sep (sep : Nat) (u v : List Nat) (hu : ∀ b ∈ u, b ≠ sep) :
    (u ++ sep :: v).dropWhile (· ≠ sep) = sep :: v := by
  induction u with
  | nil => simp
  | cons x t ih =>
    have hx : x ≠ sep := hu x (by simp)
    rw [List.cons_append, List.dropWhile_cons, if_pos (by simp [hx]),
      ih (fun b hb => hu b (List.mem_cons_of_mem _ hb))]

theorem sepSplit_eq (sep : Nat) (u v : List Nat) (hu : ∀ b ∈ u, b ≠ sep) :
    sepSplit (u ++ sep :: v) sep = (u, v) := by
  unfold sepSplit
  rw [takeWhile_sep sep u v hu, dropWhile_sep sep u v hu]
  simp

theorem numBytes_ne_sep (n sep : Nat) (h : sep < 48 ∨ 57 < sep) :
    ∀ b ∈ numBytes n, b ≠ sep := by
  intro b hb
  have := numBytes_digits n b hb
  omega

/-- The rendered timestamp parses back to its five fields. -/
theorem parseTs_fmtTime (t : DateTime) :
    parseTs (fmtTime t) = (t.day, t.month, t.year % 100, t.hour, t.minute) := by
  have hform : fmtTime t = numBytes t.day ++ 47 :: (numBytes t.month ++ 47 ::
      (numBytes (t.year % 100) ++ 32 :: (numBytes t.hour ++ 58 :: numBytes t.minute))) := by
    rw [fmtTime_assoc, bytes_slash, bytes_space, bytes_colon]
    simp
  rw [hform]
  unfold parseTs
  rw [sepSplit_eq 47 _ _ (numBytes_ne_sep _ _ (by omega))]
  dsimp only
  rw [sepSplit_eq 47 _ _ (numBytes_ne_sep _ _ (by omega))]
  dsimp only
  rw [sepSplit_eq 32 _ _ (numBytes_ne_sep _ _ (by omega))]
  dsimp only
  rw [sepSplit_eq 58 _ _ (numBytes_ne_sep _ _ (by omega))]
  simp [parseNat_numBytes]

/-- Every byte list is either delimiter-free or splits canonically at its
first delimiter. -/
theorem pipe_decomp (l : List Nat) :
    pipeFree l ∨ ∃ a r, l = a ++ PIPE :: r ∧ pipeFree a := by
  induction l with
  | nil => left; intro h; simp at h
  | cons x t ih =>
    by_cases hx : x = PIPE
    · right; exact ⟨[], t, by simp [hx], by intro h; simp at h⟩
    · rcases ih with hfree | ⟨a, r, rfl, ha⟩
      · left
        intro h
        rcases List.mem_cons.mp h with h | h
        · exact hx h.symm
        · exact hfree h
      · right
        refine ⟨x :: a, r, by simp, ?_⟩
        intro h
        rcases List.mem_cons.mp h with h | h
        · exact hx h.symm
        · exact ha h

theorem parseLog_none_noPipe (e : List Nat) (he : pipeFree e) : parseLog e = none := by
  simp only [parseLog, indexOfFrom, List.drop_zero]
  rw [indexOfAux_not_mem e PIPE 0 he]
  rw [if_neg]
  rintro ⟨h1, -, -⟩
  omega

theorem parseLog_none_headPipe (r : List Nat) : parseLog (PIPE :: r) = none := by
  simp only [parseLog, indexOfFrom, List.drop_zero]
  have h0 : indexOfAux (PIPE :: r) PIPE 0 = ((0 : Nat) : Int) := by
    simp [indexOfAux]
  rw [h0]
  rw [if_neg]
  rintro ⟨h1, -, -⟩
  omega

theorem parseLog_none_onePipe (a r : List Nat) (ha : pipeFree a) (hr : pipeFree r) :
    parseLog (a ++ PIPE :: r) = none := by
  simp only [parseLog, indexOfFrom, List.drop_zero]
  rw [indexOfAux_append a _ PIPE 0 ha]
  have ht1 : (((0 + a.length : Nat) : Int) + 1).toNat = a.length + 1 := by omega
  rw [ht1]
  have hdrop1 : (a ++ PIPE :: r).drop (a.length + 1) = r := by
    rw [show a ++ PIPE :: r = (a ++ [PIPE]) ++ r by simp,
      show a.length + 1 = (a ++ [PIPE]).length by simp, List.drop_left]
  rw [hdrop1, indexOfAux_not_mem r PIPE _ hr]
  rw [if_neg]
  rintro ⟨-, h2, -⟩
  omega

theorem parseLog_none_twoPipes (a b r2 : List Nat) (ha : pipeFree a) (hb : pipeFree b)
    (hr2 : pipeFree r2) : parseLog (a ++ PIPE :: (b ++ PIPE :: r2)) = none := by
  simp only [parseLog, indexOfFrom, List.drop_zero]
  rw [indexOfAux_append a _ PIPE 0 ha]
  have ht1 : (((0 + a.length : Nat) : Int) + 1).toNat = a.length + 1 := by omega
  rw [ht1]
  have hdrop1 : (a ++ PIPE :: (b ++ PIPE :: r2)).drop (a.length + 1) = b ++ PIPE :: r2 := by
    rw [show a ++ PIPE :: (b ++ PIPE :: r2) = (a ++ [PIPE]) ++ (b ++ PIPE :: r2) by simp,
      show a.length + 1 = (a ++ [PIPE]).length by simp, List.drop_left]
  rw [hdrop1, indexOfAux_append b _ PIPE _ hb]
  have ht2 : (((a.length + 1 + b.length : Nat) : Int) + 1).toNat =
      a.length + 1 + b.length + 1 := by omega
  rw [ht2]
  have hdrop2 : (a ++ PIPE :: (b ++ PIPE :: r2)).drop (a.length + 1 + b.length + 1) = r2 := by
    rw [show a ++ PIPE :: (b ++ PIPE :: r2) = ((a ++ [PIPE]) ++ (b ++ [PIPE])) ++ r2 by simp,
      show a.length + 1 + b.length + 1 = ((a ++ [PIPE]) ++ (b ++ [PIPE])).length by
        simp; omega, List.drop_left]
  rw [hdrop2, indexOfAux_not_mem r2 PIPE _ hr2]
  rw [if_neg]
  rintro ⟨-, -, h3⟩
  omega

theorem splitFields_length (l : List Nat) :
    (splitFields l).length = numDelims l + 1 := by
  induction l with
  | nil => simp [splitFields, numDelims]
  | cons x t ih =>
    by_cases hx : x = PIPE
    · subst hx
      have hnd : numDelims (PIPE :: t) = numDelims t + 1 := by
        simp [numDelims, List.filter_cons]
      simp [splitFields, ih, hnd]
    · have hnd : numDelims (x :: t) = numDelims t := by
        simp [numDelims, List.filter_cons, hx]
      simp only [splitFields, if_neg hx, hnd, ← ih]
      rcases hsf : splitFields t with _ | ⟨f, r⟩
      · exact absurd hsf (splitFields_ne_nil t)
      · simp [consHead]

/-! ### Eviction-shift and append lemmas -/

theorem shiftLoop_spec :
    ∀ k i m, 1 ≤ i → ∀ j,
      readLogEntry (shiftLoop m i k) j =
        if i ≤ j + 1 ∧ j + 1 < i + k then readLogEntry m (j + 1) else readLogEntry m j := by
  intro k
  induction k with
  | zero =>
    intro i m _ j
    rw [if_neg (by omega)]
    rfl
  | succ k ih =>
    intro i m hi j
    have hstor := readLogEntry_storable m i
    have hm2 : ∀ x, readLogEntry
        (writeString m (LOG_START + (i - 1) * LOG_SIZE) (readLogEntry m i)) x =
        if x = i - 1 then readLogEntry m i else readLogEntry m x := by
      intro x
      by_cases hx : x = i - 1
      · subst hx
        rw [if_pos rfl]
        exact readLogEntry_writeString m (i - 1) _ hstor
      · rw [if_neg hx]
        exact readLogEntry_writeString_frame m (i - 1) x _ hstor.1 hx
    show readLogEntry (shiftLoop
      (writeString m (LOG_START + (i - 1) * LOG_SIZE) (readLogEntry m i)) (i + 1) k) j = _
    rw [ih (i + 1) _ (by omega) j]
    by_cases hcond : i + 1 ≤ j + 1 ∧ j + 1 < i + 1 + k
    · rw [if_pos hcond, hm2 (j + 1), if_neg (by omega), if_pos (by omega)]
    · rw [if_neg hcond, hm2 j]
      by_cases hj : j = i - 1
      · subst hj
        rw [if_pos rfl, if_pos (by omega)]
        congr 1
        omega
      · rw [if_neg hj, if_neg (by omega)]

theorem shiftLogs_spec (m : EEPROM) (lc : Nat) (j : Nat) :
    readLogEntry (shiftLogs m lc) j =
      if j + 1 < lc then readLogEntry m (j + 1) else readLogEntry m j := by
  unfold shiftLogs
  rw [shiftLoop_spec (lc - 1) 1 m (by omega) j]
  by_cases h : j + 1 < lc
  · rw [if_pos (by omega), if_pos h]
  · rw [if_neg (by omega), if_neg h]

theorem logEntryOp_logCount (st : SysState) (c n s : List Nat) (t : DateTime) :
    (logEntryOp st c n s t).logCount =
      (if st.logCount ≥ MAX_LOGS then MAX_LOGS - 1 else st.logCount) + 1 := rfl

theorem logEntryOp_insideCount (st : SysState) (c n s : List Nat) (t : DateTime) :
    (logEntryOp st c n s t).insideCount = st.insideCount := rfl

theorem logEntryOp_header (st : SysState) (c n s : List Nat) (t : DateTime)
    (hle : st.logCount ≤ MAX_LOGS) :
    readInt (logEntryOp st c n s t).mem 0 = (logEntryOp st c n s t).logCount := by
  unfold logEntryOp
  refine readInt_writeInt _ 0 _ (by unfold MAX_LOGS at *; split <;> omega)

theorem logEntryOp_notFull_record (st : SysState) (c n s : List Nat) (t : DateTime)
    (hlt : st.logCount < MAX_LOGS) (hstor : storable (encodeLog c n s t)) :
    readLogEntry (logEntryOp st c n s t).mem st.logCount = encodeLog c n s t := by
  have hge : ¬(st.logCount ≥ MAX_LOGS) := by omega
  simp only [logEntryOp, if_neg hge]
  rw [readLogEntry_writeInt_frame _ 0 _ _ (by unfold LOG_START; omega)]
  exact readLogEntry_writeString st.mem st.logCount _ hstor

theorem logEntryOp_notFull_frame (st : SysState) (c n s : List Nat) (t : DateTime)
    (hlt : st.logCount < MAX_LOGS) (hstor : storable (encodeLog c n s t))
    (j : Nat) (hj : j ≠ st.logCount) :
    readLogEntry (logEntryOp st c n s t).mem j = readLogEntry st.mem j := by
  have hge : ¬(st.logCount ≥ MAX_LOGS) := by omega
  simp only [logEntryOp, if_neg hge]
  rw [readLogEntry_writeInt_frame _ 0 _ _ (by unfold LOG_START; omega)]
  exact readLogEntry_writeString_frame st.mem st.logCount j _ hstor.1 hj

theorem logEntryOp_full_shift (st : SysState) (c n s : List Nat) (t : DateTime)
    (h30 : st.logCount = MAX_LOGS) (hstor : storable (encodeLog c n s t))
    (j : Nat) (hj : j + 1 < MAX_LOGS) :
    readLogEntry (logEntryOp st c n s t).mem j = readLogEntry st.mem (j + 1) := by
  have hge : st.logCount ≥ MAX_LOGS := by omega
  simp only [logEntryOp, if_pos hge]
  rw [readLogEntry_writeInt_frame _ 0 _ _ (by unfold LOG_START; omega)]
  rw [readLogEntry_writeString_frame _ (MAX_LOGS - 1) j _ hstor.1 (by omega)]
  rw [shiftLogs_spec st.mem st.logCount j, if_pos (by omega)]

theorem logEntryOp_full_last (st : SysState) (c n s : List Nat) (t : DateTime)
    (h30 : st.logCount = MAX_LOGS) (hstor : storable (encodeLog c n s t)) :
    readLogEntry (logEntryOp st c n s t).mem (MAX_LOGS - 1) = encodeLog c n s t := by
  have hge : st.logCount ≥ MAX_LOGS := by omega
  simp only [logEntryOp, if_pos hge]
  rw [readLogEntry_writeInt_frame _ 0 _ _ (by unfold LOG_START; omega)]
  exact readLogEntry_writeString _ (MAX_LOGS - 1) _ hstor

theorem clearLogs_effects (st : SysState) :
    (clearLogs st).logCount = 0 ∧ (clearLogs st).insideCount = 0 ∧
      readInt (clearLogs st).mem 0 = 0 ∧ readInt (clearLogs st).mem 2 = 0 ∧
      ∀ a, 4 ≤ a → (clearLogs st).mem a = st.mem a := by
  refine ⟨rfl, rfl, ?_, ?_, ?_⟩
  · unfold clearLogs readInt readByte
    simp only
    rw [writeInt_other _ 2 0 0 (by omega) (by omega),
      writeInt_other _ 2 0 1 (by omega) (by omega)]
    unfold writeInt
    rw [writeByte_other _ _ _ 0 (by omega), writeByte_same, writeByte_same]
  · unfold clearLogs
    exact readInt_writeInt _ 2 0 (by omega)
  · intro a ha
    unfold clearLogs
    simp only
    rw [writeInt_other _ 2 0 a (by omega) (by omega),
      writeInt_other _ 0 0 a (by omega) (by omega)]

theorem handleScan_skip (st : SysState) (cn ci : List Nat) (t : DateTime)
    (h : cn.length = 0 ∨ ci.length = 0) : handleScan st cn ci t = st := by
  unfold handleScan
  rw [if_pos h]

theorem handleScan_insideCount (st : SysState) (cn ci : List Nat) (t : DateTime)
    (hn : cn ≠ []) (hc : ci ≠ []) :
    (handleScan st cn ci t).insideCount =
      if scanStatus st ci = bytes "IN" then st.insideCount + 1
      else if st.insideCount - 1 < 0 then 0 else st.insideCount - 1 := by
  unfold handleScan
  rw [if_neg (by simp [hn, hc])]
  rfl

theorem handleScan_logCount (st : SysState) (cn ci : List Nat) (t : DateTime)
    (hn : cn ≠ []) (hc : ci ≠ []) :
    (handleScan st cn ci t).logCount = (logEntryOp st ci cn (scanStatus st ci) t).logCount := by
  unfold handleScan
  rw [if_neg (by simp [hn, hc])]

theorem handleScan_readLog (st : SysState) (cn ci : List Nat) (t : DateTime)
    (hn : cn ≠ []) (hc : ci ≠ []) (j : Nat) :
    readLogEntry (handleScan st cn ci t).mem j =
      readLogEntry (logEntryOp st ci cn (scanStatus st ci) t).mem j := by
  unfold handleScan
  rw [if_neg (by simp [hn, hc])]
  exact readLogEntry_writeInt_frame _ 2 _ j (by unfold LOG_START; omega)

/-! ### Status-marker lemmas and the `getLastStatus` refinement -/

theorem containsB_append_self (p x : List Nat) : containsB (p ++ x) p = true :=
  containsB_of_isPrefixOf _ _ (isPrefixOf_append_self p x)

theorem encodeLog_IN_marker (c n : List Nat) (t : DateTime) :
    encodeLog c n (bytes "IN") t =
      (c ++ PIPE :: encName n) ++ (bytes "|IN|" ++ fmtTime t) := by
  rw [encodeLog_eq, bytes_IN_marker, bytes_IN]
  simp

theorem encodeLog_OUT_marker (c n : List Nat) (t : DateTime) :
    encodeLog c n (bytes "OUT") t =
      (c ++ PIPE :: encName n) ++ (bytes "|OUT|" ++ fmtTime t) := by
  rw [encodeLog_eq, bytes_OUT_marker, bytes_OUT]
  simp

theorem containsB_IN_of_IN (c n : List Nat) (t : DateTime) :
    containsB (encodeLog c n (bytes "IN") t) (bytes "|IN|") = true := by
  rw [encodeLog_IN_marker]
  exact containsB_surround _ _ _

theorem containsB_OUT_of_OUT (c n : List Nat) (t : DateTime) :
    containsB (encodeLog c n (bytes "OUT") t) (bytes "|OUT|") = true := by
  rw [encodeLog_OUT_marker]
  exact containsB_surround _ _ _

theorem containsB_IN_of_OUT (c n : List Nat) (t : DateTime)
    (hc : pipeFree c) (hn : pipeFree n) (hnin : n ≠ bytes "IN") :
    containsB (encodeLog c n (bytes "OUT") t) (bytes "|IN|") = false := by
  rw [encodeLog_eq]
  exact no_IN_marker c (encName n) (fmtTime t) hc (encName_pipeFree n hn)
    (encName_ne_IN n hnin) (fmtTime_pipeFree t) (fmtTime_headD t)

theorem lastStatusAux_refines (m : EEPROM) (id : List Nat) (rec : Nat → AttendanceRecord) :
    ∀ k, (∀ i, i < k →
        readLogEntry m i =
          encodeLog (rec i).cardID (rec i).name (rec i).status (rec i).ts ∧
        RecordWF (rec i) ∧
        (containsB (readLogEntry m i) id = true → (rec i).cardID = id)) →
      getLastStatusAux m id k = specLastStatusAux m id k := by
  intro k
  induction k with
  | zero => intro _; rfl
  | succ k ih =>
    intro h
    obtain ⟨he, hwf, himp⟩ := h k (by omega)
    obtain ⟨hcne, hcp, hnp, hnin, hst⟩ := hwf
    have hrec := fun i hi => h i (Nat.lt_succ_of_lt hi)
    have hsp : splitFields (readLogEntry m k) =
        [(rec k).cardID, encName (rec k).name, (rec k).status, fmtTime (rec k).ts] := by
      rw [he, encodeLog_eq]
      exact splitFields_four _ _ _ _ hcp (encName_pipeFree _ hnp)
        (by rcases hst with h2 | h2 <;> rw [h2] <;> decide) (fmtTime_pipeFree _)
    simp only [getLastStatusAux, specLastStatusAux]
    by_cases hcont : containsB (readLogEntry m k) id = true
    · have hid : (rec k).cardID = id := himp hcont
      have hhead : (splitFields (readLogEntry m k)).headD [] = id := by
        rw [hsp]
        simpa using hid
      have hget : ([(rec k).cardID, encName (rec k).name, (rec k).status,
          fmtTime (rec k).ts].getD 2 []) = (rec k).status := by simp
      rw [if_pos hcont, if_pos hhead, hsp, hget]
      rcases hst with h2 | h2
      · have hin : containsB (readLogEntry m k) (bytes "|IN|") = true := by
          rw [he, h2]
          exact containsB_IN_of_IN _ _ _
        rw [if_pos hin, h2]
      · have hinf : containsB (readLogEntry m k) (bytes "|IN|") = false := by
          rw [he, h2]
          exact containsB_IN_of_OUT _ _ _ hcp hnp hnin
        have hout : containsB (readLogEntry m k) (bytes "|OUT|") = true := by
          rw [he, h2]
          exact containsB_OUT_of_OUT _ _ _
        rw [if_neg (by simp [hinf]), if_pos hout, h2]
    · have hne2 : ¬((splitFields (readLogEntry m k)).headD [] = id) := by
        rw [hsp]
        simp only [List.headD_cons]
        intro hcid
        apply hcont
        rw [he, encodeLog_eq, hcid]
        exact containsB_append_self id _
      rw [if_neg hcont, if_neg hne2]
      exact ih hrec

/-! ### Remaining helper lemmas for the claims -/

theorem writeInt_bytes (m : EEPROM) (addr v : Nat) :
    writeInt m addr v addr = v / 256 % 256 ∧ writeInt m addr v (addr + 1) = v % 256 := by
  unfold writeInt
  constructor
  · rw [writeByte_other _ _ _ _ (by omega), writeByte_same]
  · rw [writeByte_same]
    omega

theorem writeString_after (m : EEPROM) (addr : Nat) (str : List Nat) (a : Nat)
    (hlen : str.length ≤ LOG_SIZE - 1) (ha : addr + str.length < a) :
    writeString m addr str a = m a := by
  unfold writeString
  rw [writeByte_other _ _ _ _ (by omega)]
  refine writeChars_outside _ _ _ _ ?_
  have := List.length_take (LOG_SIZE - 1) str
  omega

theorem logEntryOp_logCount_le (st : SysState) (c n s : List Nat) (t : DateTime)
    (h : st.logCount ≤ MAX_LOGS) : (logEntryOp st c n s t).logCount ≤ MAX_LOGS := by
  rw [logEntryOp_logCount]
  unfold MAX_LOGS at *
  split <;> omega

theorem applyAppends_le :
    ∀ ops st, st.logCount ≤ MAX_LOGS →
      (applyAppends st ops).logCount ≤ MAX_LOGS := by
  intro ops
  induction ops with
  | nil => intro st h; exact h
  | cons a rest ih =>
    intro st h
    exact ih _ (logEntryOp_logCount_le st a.1 a.2.1 a.2.2.1 a.2.2.2 h)

theorem applyOp_nonneg (st : SysState) (op : Op) (h : 0 ≤ st.insideCount) :
    0 ≤ (applyOp st op).insideCount := by
  cases op with
  | clear => simp [applyOp, clearLogs]
  | scan cn ci t =>
    simp only [applyOp]
    by_cases hv : cn.length = 0 ∨ ci.length = 0
    · rw [handleScan_skip st cn ci t hv]
      exact h
    · push_neg at hv
      have hn : cn ≠ [] := by
        intro hh
        exact hv.1 (by rw [hh]; rfl)
      have hc : ci ≠ [] := by
        intro hh
        exact hv.2 (by rw [hh]; rfl)
      rw [handleScan_insideCount st cn ci t hn hc]
      split
      · omega
      · split <;> omega

theorem applyOps_nonneg :
    ∀ ops st, 0 ≤ st.insideCount → 0 ≤ (applyOps st ops).insideCount := by
  intro ops
  induction ops with
  | nil => intro st h; exact h
  | cons op rest ih =>
    intro st h
    exact ih _ (applyOp_nonneg st op h)

theorem scanStatus_cases (st : SysState) (c : List Nat) :
    scanStatus st c = bytes "IN" ∨ scanStatus st c = bytes "OUT" := by
  unfold scanStatus
  split
  · exact Or.inr rfl
  · exact Or.inl rfl

/-- One valid scan of card `AB12`/`Alice` on a non-full log: effect on
`logCount`, the newly written record, and `insideCount`. -/
theorem scan_step (st : SysState) (t : DateTime) (ht : tsOK t)
    (hlt : st.logCount < MAX_LOGS) :
    (handleScan st (bytes "Alice") (bytes "AB12") t).logCount = st.logCount + 1 ∧
    readLogEntry (handleScan st (bytes "Alice") (bytes "AB12") t).mem st.logCount =
      encodeLog (bytes "AB12") (bytes "Alice") (scanStatus st (bytes "AB12")) t ∧
    (handleScan st (bytes "Alice") (bytes "AB12") t).insideCount =
      (if scanStatus st (bytes "AB12") = bytes "IN" then st.insideCount + 1
        else if st.insideCount - 1 < 0 then 0 else st.insideCount - 1) := by
  have hn : (bytes "Alice" : List Nat) ≠ [] := by decide
  have hcid : (bytes "AB12" : List Nat) ≠ [] := by decide
  have hstor : storable (encodeLog (bytes "AB12") (bytes "Alice")
      (scanStatus st (bytes "AB12")) t) :=
    encodeLog_storable _ _ _ _ (by decide) (by decide) (by decide) (by decide)
      (scanStatus_cases st (bytes "AB12")) ht
  refine ⟨?_, ?_, ?_⟩
  · rw [handleScan_logCount _ _ _ _ hn hcid, logEntryOp_logCount, if_neg (by omega)]
  · rw [handleScan_readLog _ _ _ _ hn hcid st.logCount]
    exact logEntryOp_notFull_record st _ _ _ t hlt hstor
  · exact handleScan_insideCount st _ _ t hn hcid

/-- If the most recent record is an IN record for the queried card,
the backward scan answers `IN` at once. -/
theorem getLastStatusAux_top_IN (m : EEPROM) (k : Nat) (c n : List Nat) (t : DateTime)
    (hrd : readLogEntry m k = encodeLog c n (bytes "IN") t) :
    getLastStatusAux m c (k + 1) = bytes "IN" := by
  simp only [getLastStatusAux]
  rw [hrd, if_pos (by rw [encodeLog_eq]; exact containsB_append_self _ _),
    if_pos (containsB_IN_of_IN _ _ _)]

/-- If the most recent record is an OUT record for the queried card,
the backward scan answers `OUT` at once. -/
theorem getLastStatusAux_top_OUT (m : EEPROM) (k : Nat) (c n : List Nat) (t : DateTime)
    (hc : pipeFree c) (hnp : pipeFree n) (hnin : n ≠ bytes "IN")
    (hrd : readLogEntry m k = encodeLog c n (bytes "OUT") t) :
    getLastStatusAux m c (k + 1) = bytes "OUT" := by
  simp only [getLastStatusAux]
  rw [hrd, if_pos (by rw [encodeLog_eq]; exact containsB_append_self _ _),
    if_neg (by rw [containsB_IN_of_OUT _ _ _ hc hnp hnin]; simp),
    if_pos (containsB_OUT_of_OUT _ _ _)]

/-! ### Claim theorems -/

/-- C3: `insideCount` is never negative.  Every sequence of card-scan and
clear operations from a state with `insideCount ≥ 0` keeps
`insideCount ≥ 0`; an OUT transition at 0 leaves it at 0 (the decrement
is floored at 0) and an IN transition increments it by 1. -/
theorem claim3_insideCount_nonneg (st : SysState) (h : 0 ≤ st.insideCount) :
    (∀ ops : List Op, 0 ≤ (applyOps st ops).insideCount) ∧
    (∀ cn ci : List Nat, ∀ t : DateTime, cn ≠ [] → ci ≠ [] →
      scanStatus st ci = bytes "OUT" → st.insideCount = 0 →
      (handleScan st cn ci t).insideCount = 0) ∧
    (∀ cn ci : List Nat, ∀ t : DateTime, cn ≠ [] → ci ≠ [] →
      scanStatus st ci = bytes "IN" →
      (handleScan st cn ci t).insideCount = st.insideCount + 1) := by
  refine ⟨fun ops => applyOps_nonneg ops st h, ?_, ?_⟩
  · intro cn ci t hn hc hout hzero
    rw [handleScan_insideCount st cn ci t hn hc, if_neg (by rw [hout]; decide), hzero]
    rfl
  · intro cn ci t hn hc hin
    rw [handleScan_insideCount st cn ci t hn hc, if_pos hin]

/-- C3 witness: the theorem applied to the boot state, one concrete scan
and one clear operation. -/
theorem claim3_witness :
    0 ≤ emptySt.insideCount ∧
    ((∀ ops : List Op, 0 ≤ (applyOps emptySt ops).insideCount) ∧
    (∀ cn ci : List Nat, ∀ t : DateTime, cn ≠ [] → ci ≠ [] →
      scanStatus emptySt ci = bytes "OUT" → emptySt.insideCount = 0 →
      (handleScan emptySt cn ci t).insideCount = 0) ∧
    (∀ cn ci : List Nat, ∀ t : DateTime, cn ≠ [] → ci ≠ [] →
      scanStatus emptySt ci = bytes "IN" →
      (handleScan emptySt cn ci t).insideCount = emptySt.insideCount + 1)) :=
  ⟨by decide, claim3_insideCount_nonneg emptySt (by decide)⟩

/-- C4: code bug.  `writeString(addr, str)` puts the terminator at
`addr + str.length()`, so for a string of length `LOG_SIZE` (80) the
zero byte lands at `addr + LOG_SIZE` — the first byte of the NEXT slot —
contradicting the claim that no byte at or beyond `addr + LOG_SIZE` is
written.  On an EEPROM holding 7 everywhere, the byte at
`addr + LOG_SIZE` becomes 0. -/
theorem claim4_writeString_out_of_slot :
    writeString sevenMem LOG_START (List.replicate LOG_SIZE 97) (LOG_START + LOG_SIZE) = 0 ∧
    sevenMem (LOG_START + LOG_SIZE) = 7 := by
  constructor
  · have : LOG_START + LOG_SIZE = LOG_START + (List.replicate LOG_SIZE 97).length := by
      simp
    rw [this]
    exact writeString_terminator sevenMem LOG_START (List.replicate LOG_SIZE 97)
  · rfl

/-- C9: `clearLogs` zeroes and persists both counters while leaving every
record-slot byte untouched, and the stale bytes are inert: one append
after a clear makes `get(0)` return exactly the new record. -/
theorem claim9_clear_frame (st : SysState) (c n s : List Nat) (t : DateTime)
    (hstor : storable (encodeLog c n s t)) :
    (clearLogs st).logCount = 0 ∧ (clearLogs st).insideCount = 0 ∧
    readInt (clearLogs st).mem 0 = 0 ∧ readInt (clearLogs st).mem 2 = 0 ∧
    (∀ a, LOG_START ≤ a → (clearLogs st).mem a = st.mem a) ∧
    readLogEntry (logEntryOp (clearLogs st) c n s t).mem 0 = encodeLog c n s t := by
  obtain ⟨h1, h2, h3, h4, h5⟩ := clearLogs_effects st
  refine ⟨h1, h2, h3, h4, fun a ha => h5 a (by unfold LOG_START at ha; omega), ?_⟩
  have hrec := logEntryOp_notFull_record (clearLogs st) c n s t
    (by rw [h1]; unfold MAX_LOGS; omega) hstor
  rwa [h1] at hrec

/-- C9 witness: clear a state that already holds a longer record, then
append a shorter one; `get(0)` returns exactly the new record. -/
theorem claim9_witness :
    storable (encodeLog (bytes "A") (bytes "B") (bytes "IN") ts1) ∧
    ((clearLogs oneRecSt).logCount = 0 ∧ (clearLogs oneRecSt).insideCount = 0 ∧
    readInt (clearLogs oneRecSt).mem 0 = 0 ∧ readInt (clearLogs oneRecSt).mem 2 = 0 ∧
    (∀ a, LOG_START ≤ a → (clearLogs oneRecSt).mem a = oneRecSt.mem a) ∧
    readLogEntry (logEntryOp (clearLogs oneRecSt) (bytes "A") (bytes "B") (bytes "IN") ts1).mem 0 =
      encodeLog (bytes "A") (bytes "B") (bytes "IN") ts1) :=
  ⟨by decide, claim9_clear_frame oneRecSt (bytes "A") (bytes "B") (bytes "IN") ts1 (by decide)⟩

/-- C10: for appends with `cardID` of at most 8 bytes, name of at most 32
bytes, status IN or OUT and a calendar-range timestamp, the encoded
record is at most 60 bytes — strictly below `LOG_SIZE - 1` — so the
truncation branch of `writeString` is never taken, the terminator stays
inside the record's own 80-byte slot, and the record write touches no
byte outside the slot. -/
theorem claim10_record_fits (c n s : List Nat) (t : DateTime) (m : EEPROM) (addr : Nat)
    (hc : c.length ≤ 8) (hn : n.length ≤ 32)
    (hs : s = bytes "IN" ∨ s = bytes "OUT") (ht : tsOK t) :
    (encodeLog c n s t).length ≤ 60 ∧ 60 < LOG_SIZE - 1 ∧
    (encodeLog c n s t).take (LOG_SIZE - 1) = encodeLog c n s t ∧
    addr + (encodeLog c n s t).length < addr + LOG_SIZE ∧
    (∀ a, a < addr ∨ addr + LOG_SIZE ≤ a → writeString m addr (encodeLog c n s t) a = m a) := by
  have hlen := encodeLog_len c n s t hc hn hs ht
  refine ⟨hlen, by decide, ?_, by unfold LOG_SIZE; omega, ?_⟩
  · exact List.take_of_length_le (by unfold LOG_SIZE; omega)
  · intro a ha
    exact writeString_frame m addr _ (by unfold LOG_SIZE; omega) a ha

/-- C10 witness: the theorem applied to a concrete bounded record at the
first slot of a blank store. -/
theorem claim10_witness :
    ((bytes "AB12").length ≤ 8 ∧ (bytes "Alice").length ≤ 32 ∧
      (bytes "IN" = bytes "IN" ∨ bytes "IN" = bytes "OUT") ∧ tsOK ts3) ∧
    ((encodeLog (bytes "AB12") (bytes "Alice") (bytes "IN") ts3).length ≤ 60 ∧
      60 < LOG_SIZE - 1 ∧
      (encodeLog (bytes "AB12") (bytes "Alice") (bytes "IN") ts3).take (LOG_SIZE - 1) =
        encodeLog (bytes "AB12") (bytes "Alice") (bytes "IN") ts3 ∧
      LOG_START + (encodeLog (bytes "AB12") (bytes "Alice") (bytes "IN") ts3).length <
        LOG_START + LOG_SIZE ∧
      (∀ a, a < LOG_START ∨ LOG_START + LOG_SIZE ≤ a →
        writeString zeroMem LOG_START (encodeLog (bytes "AB12") (bytes "Alice")
          (bytes "IN") ts3) a = zeroMem a)) :=
  ⟨⟨by decide, by decide, Or.inl rfl, by decide⟩,
    claim10_record_fits (bytes "AB12") (bytes "Alice") (bytes "IN") ts3 zeroMem LOG_START
      (by decide) (by decide) (Or.inl rfl) (by decide)⟩

/-- C1 counterexample: `getLastStatus` matches the queried cardID as a
substring of the whole record text (`indexOf(cardID) >= 0`), not by
equality with the cardID field.  In a log whose only record belongs to
card `AB12`, querying `AB1` returns `IN`, while the claim's
field-equality description (`specLastStatus`) returns `OUT` because no
record's cardID field equals `AB1`. -/
theorem claim1_counterexample :
    getLastStatus oneRecSt (bytes "AB1") = bytes "IN" ∧
    specLastStatus oneRecSt (bytes "AB1") = bytes "OUT" ∧
    getLastStatus oneRecSt (bytes "AB1") ≠ specLastStatus oneRecSt (bytes "AB1") := by
  refine ⟨by decide, by decide, by decide⟩

/-- C1 (amended): `getLastStatus` scans backward and decides by substring
matching (`indexOf`).  Provided every stored record is a well-formed
encoding and contains the queried cardID as a substring only when it is
that card's own record, the substring scan agrees with the claim's
field-equality description: it returns the status field of the most
recent record whose cardID field equals the query, and `OUT` when there
is none. -/
theorem claim1_lastStatus_amended (st : SysState) (id : List Nat)
    (rec : Nat → AttendanceRecord)
    (h : ∀ i, i < st.logCount →
        readLogEntry st.mem i =
          encodeLog (rec i).cardID (rec i).name (rec i).status (rec i).ts ∧
        RecordWF (rec i) ∧
        (containsB (readLogEntry st.mem i) id = true → (rec i).cardID = id)) :
    getLastStatus st id = specLastStatus st id :=
  lastStatusAux_refines st.mem id rec st.logCount h

/-- C1 witness: the amended theorem applied to the one-record state and
the card's own id. -/
theorem claim1_witness :
    (∀ i, i < oneRecSt.logCount →
        readLogEntry oneRecSt.mem i =
          encodeLog (oneRec i).cardID (oneRec i).name (oneRec i).status (oneRec i).ts ∧
        RecordWF (oneRec i) ∧
        (containsB (readLogEntry oneRecSt.mem i) (bytes "AB12") = true →
          (oneRec i).cardID = bytes "AB12")) ∧
    getLastStatus oneRecSt (bytes "AB12") = specLastStatus oneRecSt (bytes "AB12") := by
  have h : ∀ i, i < oneRecSt.logCount →
      readLogEntry oneRecSt.mem i =
        encodeLog (oneRec i).cardID (oneRec i).name (oneRec i).status (oneRec i).ts ∧
      RecordWF (oneRec i) ∧
      (containsB (readLogEntry oneRecSt.mem i) (bytes "AB12") = true →
        (oneRec i).cardID = bytes "AB12") := by
    intro i hi
    have h1 : oneRecSt.logCount = 1 := rfl
    rw [h1] at hi
    have h0 : i = 0 := by omega
    subst h0
    exact ⟨by decide, by decide, fun _ => by decide⟩
  exact ⟨h, claim1_lastStatus_amended oneRecSt (bytes "AB12") oneRec h⟩

/-- C2: `logCount` never exceeds `MAX_LOGS` under any sequence of
appends; an append on a full log shifts slots `1..MAX_LOGS-1` down one
slot (evicting slot 0, preserving the order of survivors), writes the
new record at the last slot, leaves `logCount` at `MAX_LOGS`, and
re-persists it to the header. -/
theorem claim2_append_bound_evict (st : SysState) (c n s : List Nat) (t : DateTime)
    (h30 : st.logCount = MAX_LOGS) (hstor : storable (encodeLog c n s t)) :
    (∀ st2 : SysState, ∀ ops, st2.logCount ≤ MAX_LOGS →
      (applyAppends st2 ops).logCount ≤ MAX_LOGS) ∧
    (logEntryOp st c n s t).logCount = MAX_LOGS ∧
    (∀ j, j + 1 < MAX_LOGS →
      readLogEntry (logEntryOp st c n s t).mem j = readLogEntry st.mem (j + 1)) ∧
    readLogEntry (logEntryOp st c n s t).mem (MAX_LOGS - 1) = encodeLog c n s t ∧
    readInt (logEntryOp st c n s t).mem 0 = MAX_LOGS := by
  have hcount : (logEntryOp st c n s t).logCount = MAX_LOGS := by
    rw [logEntryOp_logCount, if_pos (by omega)]
    decide
  refine ⟨fun st2 ops hle => applyAppends_le ops st2 hle, hcount, ?_, ?_, ?_⟩
  · intro j hj
    exact logEntryOp_full_shift st c n s t h30 hstor j hj
  · exact logEntryOp_full_last st c n s t h30 hstor
  · rw [logEntryOp_header st c n s t (by omega), hcount]

/-- C2 witness: the theorem applied to a state with all thirty slots
full and a concrete bounded record. -/
theorem claim2_witness :
    (fullSt.logCount = MAX_LOGS ∧
      storable (encodeLog (bytes "C") (bytes "D") (bytes "OUT") ts2)) ∧
    ((∀ st2 : SysState, ∀ ops, st2.logCount ≤ MAX_LOGS →
      (applyAppends st2 ops).logCount ≤ MAX_LOGS) ∧
    (logEntryOp fullSt (bytes "C") (bytes "D") (bytes "OUT") ts2).logCount = MAX_LOGS ∧
    (∀ j, j + 1 < MAX_LOGS →
      readLogEntry (logEntryOp fullSt (bytes "C") (bytes "D") (bytes "OUT") ts2).mem j =
        readLogEntry fullSt.mem (j + 1)) ∧
    readLogEntry (logEntryOp fullSt (bytes "C") (bytes "D") (bytes "OUT") ts2).mem
      (MAX_LOGS - 1) = encodeLog (bytes "C") (bytes "D") (bytes "OUT") ts2 ∧
    readInt (logEntryOp fullSt (bytes "C") (bytes "D") (bytes "OUT") ts2).mem 0 = MAX_LOGS) :=
  ⟨⟨rfl, by decide⟩,
    claim2_append_bound_evict fullSt (bytes "C") (bytes "D") (bytes "OUT") ts2 rfl (by decide)⟩

/-- C5: codec round trip.  Encoding a well-formed record (nonempty
delimiter-free cardID of at most 8 bytes, nonempty delimiter-free name of
at most 32 bytes, status IN or OUT, calendar-range timestamp with a
two-digit year) to `cardID|name|status|D/M/YY H:M` and splitting the
text back on the delimiter recovers exactly the cardID, name and status
fields and the rendered timestamp, and the rendered timestamp parses
back to exactly the original five timestamp fields. -/
theorem claim5_codec_roundtrip (r : AttendanceRecord)
    (hid : r.cardID ≠ []) (hidp : pipeFree r.cardID) (hidl : r.cardID.length ≤ 8)
    (hname : r.name ≠ []) (hnp : pipeFree r.name) (hnl : r.name.length ≤ 32)
    (hs : r.status = bytes "IN" ∨ r.status = bytes "OUT")
    (ht : tsOK r.ts) (hy : r.ts.year ≤ 99) :
    parseLog (encodeLog r.cardID r.name r.status r.ts) =
      some (r.cardID, r.name, r.status, fmtTime r.ts) ∧
    parseTs (fmtTime r.ts) = (r.ts.day, r.ts.month, r.ts.year, r.ts.hour, r.ts.minute) := by
  constructor
  · have hen : encName r.name = r.name := by
      unfold encName
      rw [if_pos (List.length_pos.mpr hname)]
    rw [encodeLog_eq, hen]
    exact parseLog_four _ _ _ _ hid hidp hnp
      (by rcases hs with h2 | h2 <;> rw [h2] <;> decide)
  · rw [parseTs_fmtTime r.ts, Nat.mod_eq_of_lt (by omega)]

/-- C5 witness: the round trip at a concrete record. -/
theorem claim5_witness :
    ((bytes "AB12" : List Nat) ≠ [] ∧ pipeFree (bytes "AB12") ∧ (bytes "AB12").length ≤ 8 ∧
      (bytes "Alice" : List Nat) ≠ [] ∧ pipeFree (bytes "Alice") ∧ (bytes "Alice").length ≤ 32 ∧
      tsOK ⟨31, 12, 99, 23, 59⟩ ∧ (⟨31, 12, 99, 23, 59⟩ : DateTime).year ≤ 99) ∧
    (parseLog (encodeLog (bytes "AB12") (bytes "Alice") (bytes "OUT") ⟨31, 12, 99, 23, 59⟩) =
      some (bytes "AB12", bytes "Alice", bytes "OUT", fmtTime ⟨31, 12, 99, 23, 59⟩) ∧
    parseTs (fmtTime ⟨31, 12, 99, 23, 59⟩) = (31, 12, 99, 23, 59)) :=
  ⟨⟨by decide, by decide, by decide, by decide, by decide, by decide, by decide, by decide⟩,
    claim5_codec_roundtrip ⟨bytes "AB12", bytes "Alice", bytes "OUT", ⟨31, 12, 99, 23, 59⟩⟩
      (by decide) (by decide) (by decide) (by decide) (by decide) (by decide)
      (Or.inr rfl) (by decide) (by decide)⟩

/-- C6 counterexample: the slot `|a|b|c|d` holds four delimiters — not
"fewer than four" — yet the parser skips it (its first field is empty,
so the guard `pos1 > 0` fails), refuting "unparseable exactly when fewer
than four delimiters are found".  Moreover every well-formed record holds
exactly three delimiters and parses fine. -/
theorem claim6_counterexample :
    numDelims (bytes "|a|b|c|d") = 4 ∧ parseLog (bytes "|a|b|c|d") = none ∧
    numDelims (bytes "a|b|c|d") = 3 ∧
    parseLog (bytes "a|b|c|d") = some (bytes "a", bytes "b", bytes "c", bytes "d") := by
  refine ⟨by decide, by decide, by decide, by decide⟩

/-- C6 (amended): decoding splits the slot on the delimiter into exactly
four fields and succeeds precisely when the slot holds at least three
delimiters AND the first field is nonempty (first delimiter not at
position 0); any other input — in particular garbage with fewer than
three delimiters — is reported unparseable (`none`, never a crash) and
skipped by the caller. -/
theorem claim6_parse_amended (e : List Nat) :
    ((parseLog e).isSome = true ↔
      4 ≤ (splitFields e).length ∧ (splitFields e).headD [] ≠ []) ∧
    (numDelims e < 3 → parseLog e = none) := by
  rcases pipe_decomp e with hfree | ⟨a, r, rfl, ha⟩
  · have hnone := parseLog_none_noPipe e hfree
    have hsp := splitFields_nosep e hfree
    refine ⟨?_, fun _ => hnone⟩
    rw [hnone, hsp]
    simp
  · rcases pipe_decomp r with hfree2 | ⟨b, r2, rfl, hb⟩
    · have hnone := parseLog_none_onePipe a r ha hfree2
      have hsp : splitFields (a ++ PIPE :: r) = [a, r] := by
        rw [splitFields_append_sep _ _ ha, splitFields_nosep _ hfree2]
      refine ⟨?_, fun _ => hnone⟩
      rw [hnone, hsp]
      simp
    · rcases pipe_decomp r2 with hfree3 | ⟨c, d, rfl, hc⟩
      · have hnone := parseLog_none_twoPipes a b r2 ha hb hfree3
        have hsp : splitFields (a ++ PIPE :: (b ++ PIPE :: r2)) = [a, b, r2] := by
          rw [splitFields_append_sep _ _ ha, splitFields_append_sep _ _ hb,
            splitFields_nosep _ hfree3]
        refine ⟨?_, fun _ => hnone⟩
        rw [hnone, hsp]
        simp
      · have hsp : splitFields (a ++ PIPE :: (b ++ PIPE :: (c ++ PIPE :: d))) =
            a :: b :: c :: splitFields d := by
          rw [splitFields_append_sep _ _ ha, splitFields_append_sep _ _ hb,
            splitFields_append_sep _ _ hc]
        have hlen4 : 4 ≤ (splitFields (a ++ PIPE :: (b ++ PIPE :: (c ++ PIPE :: d)))).length := by
          rw [hsp]
          have := List.length_pos.mpr (splitFields_ne_nil d)
          simp
          omega
        have hnd : ¬(numDelims (a ++ PIPE :: (b ++ PIPE :: (c ++ PIPE :: d))) < 3) := by
          have hq := splitFields_length (a ++ PIPE :: (b ++ PIPE :: (c ++ PIPE :: d)))
          omega
        by_cases hane : a = []
        · subst hane
          have hnone : parseLog ([] ++ PIPE :: (b ++ PIPE :: (c ++ PIPE :: d))) = none := by
            rw [List.nil_append]
            exact parseLog_none_headPipe _
          refine ⟨?_, fun hlt => absurd hlt hnd⟩
          rw [hnone, hsp]
          simp
        · have hsome := parseLog_four a b c d hane ha hb hc
          refine ⟨?_, fun hlt => absurd hlt hnd⟩
          rw [hsome, hsp]
          have hlen : 4 ≤ (a :: b :: c :: splitFields d).length := by
            have hpos := List.length_pos.mpr (splitFields_ne_nil d)
            simp only [List.length_cons]
            omega
          constructor
          · intro _
            exact ⟨hlen, by simpa using hane⟩
          · intro _
            rfl

/-- C6 witness: the amended characterization at a delimiter-free garbage
slot, with the inner implication discharged. -/
theorem claim6_witness :
    (((parseLog (bytes "garbage")).isSome = true ↔
      4 ≤ (splitFields (bytes "garbage")).length ∧
        (splitFields (bytes "garbage")).headD [] ≠ []) ∧
    (numDelims (bytes "garbage") < 3 → parseLog (bytes "garbage") = none)) ∧
    parseLog (bytes "garbage") = none :=
  ⟨claim6_parse_amended (bytes "garbage"),
    (claim6_parse_amended (bytes "garbage")).2 (by decide)⟩

/-- C8 counterexample: slots are NOT zero-padded after the terminator.
Appending a 24-byte record, clearing, and appending a 17-byte record
leaves slot 0 holding the new record and its terminator at offset 17,
but the byte at offset 18 is the stale byte 50 (`2`) of the old record,
not zero. -/
theorem claim8_counterexample :
    readLogEntry (logEntryOp (clearLogs (logEntryOp emptySt (bytes "AB12") (bytes "Alice")
        (bytes "IN") ts1)) (bytes "A") (bytes "B") (bytes "IN") ts1).mem 0 =
      bytes "A|B|IN|1/1/25 0:0" ∧
    (logEntryOp (clearLogs (logEntryOp emptySt (bytes "AB12") (bytes "Alice")
        (bytes "IN") ts1)) (bytes "A") (bytes "B") (bytes "IN") ts1).mem (LOG_START + 17) = 0 ∧
    (logEntryOp (clearLogs (logEntryOp emptySt (bytes "AB12") (bytes "Alice")
        (bytes "IN") ts1)) (bytes "A") (bytes "B") (bytes "IN") ts1).mem (LOG_START + 18) = 50 := by
  refine ⟨by decide, by decide, by decide⟩

/-- C8 (amended): the persisted layout is big-endian 16-bit `logCount` at
bytes 0–1, big-endian 16-bit `insideCount` at bytes 2–3 (every
`insideCount` persistence goes through `writeInt(2, ·)`), record slot
`i` at bytes `[100 + 80 i, 100 + 80 i + 80)` holding the delimited text
record with a zero terminator; the slot bytes AFTER the terminator are
not zeroed but keep their previous values (zero only on a never-written
store). -/
theorem claim8_layout_amended (st : SysState) (c n s : List Nat) (t : DateTime)
    (hstor : storable (encodeLog c n s t)) (hlt : st.logCount < MAX_LOGS) :
    (logEntryOp st c n s t).mem 0 = (st.logCount + 1) / 256 % 256 ∧
    (logEntryOp st c n s t).mem 1 = (st.logCount + 1) % 256 ∧
    (∀ m : EEPROM, ∀ v : Nat, writeInt m 2 v 2 = v / 256 % 256 ∧ writeInt m 2 v 3 = v % 256) ∧
    readLogEntry (logEntryOp st c n s t).mem st.logCount = encodeLog c n s t ∧
    (logEntryOp st c n s t).mem
      (LOG_START + st.logCount * LOG_SIZE + (encodeLog c n s t).length) = 0 ∧
    (∀ j, (encodeLog c n s t).length < j → j < LOG_SIZE →
      (logEntryOp st c n s t).mem (LOG_START + st.logCount * LOG_SIZE + j) =
        st.mem (LOG_START + st.logCount * LOG_SIZE + j)) := by
  have hge : ¬(st.logCount ≥ MAX_LOGS) := by omega
  refine ⟨?_, ?_, ?_, ?_, ?_, ?_⟩
  · simp only [logEntryOp, if_neg hge]
    exact (writeInt_bytes _ 0 _).1
  · simp only [logEntryOp, if_neg hge]
    exact (writeInt_bytes _ 0 _).2
  · intro m v
    exact writeInt_bytes m 2 v
  · exact logEntryOp_notFull_record st c n s t hlt hstor
  · simp only [logEntryOp, if_neg hge]
    rw [writeInt_other _ 0 _ _ (by unfold LOG_START; omega) (by unfold LOG_START; omega)]
    exact writeString_terminator _ _ _
  · intro j hj1 hj2
    simp only [logEntryOp, if_neg hge]
    rw [writeInt_other _ 0 _ _ (by unfold LOG_START; omega) (by unfold LOG_START; omega)]
    exact writeString_after _ _ _ _ hstor.1 (by omega)

/-- C8 witness: the amended layout at a concrete append on the boot
state. -/
theorem claim8_witness :
    (storable (encodeLog (bytes "AB12") (bytes "Alice") (bytes "IN") ts1) ∧
      emptySt.logCount < MAX_LOGS) ∧
    ((logEntryOp emptySt (bytes "AB12") (bytes "Alice") (bytes "IN") ts1).mem 0 =
      (emptySt.logCount + 1) / 256 % 256 ∧
    (logEntryOp emptySt (bytes "AB12") (bytes "Alice") (bytes "IN") ts1).mem 1 =
      (emptySt.logCount + 1) % 256 ∧
    (∀ m : EEPROM, ∀ v : Nat, writeInt m 2 v 2 = v / 256 % 256 ∧ writeInt m 2 v 3 = v % 256) ∧
    readLogEntry (logEntryOp emptySt (bytes "AB12") (bytes "Alice") (bytes "IN") ts1).mem
      emptySt.logCount = encodeLog (bytes "AB12") (bytes "Alice") (bytes "IN") ts1 ∧
    (logEntryOp emptySt (bytes "AB12") (bytes "Alice") (bytes "IN") ts1).mem
      (LOG_START + emptySt.logCount * LOG_SIZE +
        (encodeLog (bytes "AB12") (bytes "Alice") (bytes "IN") ts1).length) = 0 ∧
    (∀ j, (encodeLog (bytes "AB12") (bytes "Alice") (bytes "IN") ts1).length < j →
      j < LOG_SIZE →
      (logEntryOp emptySt (bytes "AB12") (bytes "Alice") (bytes "IN") ts1).mem
        (LOG_START + emptySt.logCount * LOG_SIZE + j) =
        emptySt.mem (LOG_START + emptySt.logCount * LOG_SIZE + j))) :=
  ⟨⟨by decide, by decide⟩,
    claim8_layout_amended emptySt (bytes "AB12") (bytes "Alice") (bytes "IN") ts1
      (by decide) (by decide)⟩

/-- C7: scenario.  Starting from an empty log, card `AB12` (name
`Alice`) scanned three times in a row — at any calendar-range
timestamps — produces the status sequence IN, OUT, IN; afterwards
`insideCount` is 1 and `logCount` is 3. -/
theorem claim7_scenario (ta tb tc : DateTime)
    (h1 : tsOK ta) (h2 : tsOK tb) (h3 : tsOK tc) :
    scanStatus emptySt (bytes "AB12") = bytes "IN" ∧
    scanStatus (handleScan emptySt (bytes "Alice") (bytes "AB12") ta)
      (bytes "AB12") = bytes "OUT" ∧
    scanStatus (handleScan (handleScan emptySt (bytes "Alice") (bytes "AB12") ta)
      (bytes "Alice") (bytes "AB12") tb) (bytes "AB12") = bytes "IN" ∧
    (handleScan (handleScan (handleScan emptySt (bytes "Alice") (bytes "AB12") ta)
      (bytes "Alice") (bytes "AB12") tb) (bytes "Alice") (bytes "AB12") tc).insideCount = 1 ∧
    (handleScan (handleScan (handleScan emptySt (bytes "Alice") (bytes "AB12") ta)
      (bytes "Alice") (bytes "AB12") tb) (bytes "Alice") (bytes "AB12") tc).logCount = 3 := by
  have s0 : scanStatus emptySt (bytes "AB12") = bytes "IN" := by decide
  obtain ⟨lc1, r1, i1⟩ := scan_step emptySt ta h1 (by decide)
  rw [s0] at r1
  have g1 : getLastStatus (handleScan emptySt (bytes "Alice") (bytes "AB12") ta)
      (bytes "AB12") = bytes "IN" := by
    unfold getLastStatus
    rw [lc1]
    exact getLastStatusAux_top_IN _ _ _ _ _ r1
  have s1 : scanStatus (handleScan emptySt (bytes "Alice") (bytes "AB12") ta)
      (bytes "AB12") = bytes "OUT" := by
    unfold scanStatus
    rw [g1, if_pos rfl]
  have I1 : (handleScan emptySt (bytes "Alice") (bytes "AB12") ta).insideCount = 1 := by
    rw [i1, if_pos s0]
    decide
  obtain ⟨lc2, r2, i2⟩ := scan_step (handleScan emptySt (bytes "Alice") (bytes "AB12") ta)
    tb h2 (by rw [lc1]; decide)
  rw [s1] at r2
  rw [lc1] at r2
  have g2 : getLastStatus (handleScan (handleScan emptySt (bytes "Alice") (bytes "AB12") ta)
      (bytes "Alice") (bytes "AB12") tb) (bytes "AB12") = bytes "OUT" := by
    unfold getLastStatus
    rw [lc2, lc1]
    exact getLastStatusAux_top_OUT _ (emptySt.logCount + 1) (bytes "AB12") (bytes "Alice")
      tb (by decide) (by decide) (by decide) r2
  have s2 : scanStatus (handleScan (handleScan emptySt (bytes "Alice") (bytes "AB12") ta)
      (bytes "Alice") (bytes "AB12") tb) (bytes "AB12") = bytes "IN" := by
    unfold scanStatus
    rw [g2, if_neg (by decide)]
  have I2 : (handleScan (handleScan emptySt (bytes "Alice") (bytes "AB12") ta)
      (bytes "Alice") (bytes "AB12") tb).insideCount = 0 := by
    rw [i2, if_neg (by rw [s1]; decide), I1]
    decide
  obtain ⟨lc3, r3, i3⟩ := scan_step (handleScan (handleScan emptySt (bytes "Alice")
    (bytes "AB12") ta) (bytes "Alice") (bytes "AB12") tb) tc h3 (by rw [lc2, lc1]; decide)
  have I3 : (handleScan (handleScan (handleScan emptySt (bytes "Alice") (bytes "AB12") ta)
      (bytes "Alice") (bytes "AB12") tb) (bytes "Alice") (bytes "AB12") tc).insideCount = 1 := by
    rw [i3, if_pos s2, I2]
    decide
  have L3 : (handleScan (handleScan (handleScan emptySt (bytes "Alice") (bytes "AB12") ta)
      (bytes "Alice") (bytes "AB12") tb) (bytes "Alice") (bytes "AB12") tc).logCount = 3 := by
    rw [lc3, lc2, lc1]
    decide
  exact ⟨s0, s1, s2, I3, L3⟩

/-- C7 witness: the scenario at three concrete timestamps. -/
theorem claim7_witness :
    (tsOK ts1 ∧ tsOK ts2 ∧ tsOK ts3) ∧
    (scanStatus emptySt (bytes "AB12") = bytes "IN" ∧
    scanStatus (handleScan emptySt (bytes "Alice") (bytes "AB12") ts1)
      (bytes "AB12") = bytes "OUT" ∧
    scanStatus (handleScan (handleScan emptySt (bytes "Alice") (bytes "AB12") ts1)
      (bytes "Alice") (bytes "AB12") ts2) (bytes "AB12") = bytes "IN" ∧
    (handleScan (handleScan (handleScan emptySt (bytes "Alice") (bytes "AB12") ts1)
      (bytes "Alice") (bytes "AB12") ts2) (bytes "Alice") (bytes "AB12") ts3).insideCount = 1 ∧
    (handleScan (handleScan (handleScan emptySt (bytes "Alice") (bytes "AB12") ts1)
      (bytes "Alice") (bytes "AB12") ts2) (bytes "Alice") (bytes "AB12") ts3).logCount = 3) :=
  ⟨⟨by decide, by decide, by decide⟩,
    claim7_scenario ts1 ts2 ts3 (by decide) (by decide) (by decide)⟩

end RFID
